import Mathlib

/-!
Verification of the document-research tool's three core components against
their natural-language specification:

* the Layout Reconstructor (the page walk inside `parsePdf`),
* the Citation Token Parser (`MessageBubble.parsedContent` in Message.tsx),
* the Quote Locator (`highlightQuote` in PdfViewer.tsx).

Modelling conventions: JavaScript strings are `List Char`, JavaScript
numbers are `ℚ` (exact rationals standing for the float literals), the
regex classes \s and \d are restricted to their ASCII members, and
`String.prototype.toLowerCase` is modelled on ASCII letters.  The markdown
renderer (`marked.parse`) and the DOM are external collaborators of the
core (spec section 6) and are modelled as the identity on text.
`Array.prototype.sort` (specified to be stable) is modelled as a stable
insertion sort driven by the source's comparator.
-/

/-- JS whitespace class \s, restricted to its ASCII members
(tab, newline, vertical tab, form feed, carriage return, space). -/
def jsWs (c : Char) : Bool :=
  c.toNat = 9 || c.toNat = 10 || c.toNat = 11 || c.toNat = 12 || c.toNat = 13 || c.toNat = 32

/-- Decimal digit, the regex class \d. -/
def jsDigit (c : Char) : Bool :=
  48 ≤ c.toNat && c.toNat ≤ 57

/-- The two string delimiters accepted by the citation regex:
double quote (code 34) and single quote (code 39). -/
def jsQuote (c : Char) : Bool :=
  c.toNat = 34 || c.toNat = 39

/-- ASCII model of String.prototype.toLowerCase. -/
def lowerChar (c : Char) : Char :=
  if 65 ≤ c.toNat ∧ c.toNat ≤ 90 then Char.ofNat (c.toNat + 32) else c

/-- Helper for `collapseWs`: the Bool records whether the previous
character was whitespace (so a run of whitespace emits one space). -/
def collapseWsAux : Bool → List Char → List Char
  | _, [] => []
  | prevWs, c :: cs =>
    if jsWs c then
      if prevWs then collapseWsAux true cs else ' ' :: collapseWsAux true cs
    else c :: collapseWsAux false cs

/-- s.replace(/\s+/g, " "): each maximal whitespace run becomes one space. -/
def collapseWs (s : List Char) : List Char := collapseWsAux false s

/-- String.prototype.trim (ASCII whitespace model). -/
def trimJs (s : List Char) : List Char :=
  ((s.dropWhile jsWs).reverse.dropWhile jsWs).reverse

/-- Helper for `firstIdx`, carrying the index reached so far. -/
def firstIdxAux (pat : List Char) : List Char → ℕ → Option ℕ
  | [], i => if pat.isPrefixOf ([] : List Char) then some i else none
  | c :: cs, i => if pat.isPrefixOf (c :: cs) then some i else firstIdxAux pat cs (i + 1)

/-- String.prototype.indexOf: index of the first occurrence of pat in s. -/
def firstIdx (s pat : List Char) : Option ℕ := firstIdxAux pat s 0

/-- Whether pat occurs somewhere in s. -/
def hasOccur (s pat : List Char) : Bool := (firstIdx s pat).isSome

/-- Helper for `findIdxQ`, carrying the index reached so far. -/
def findIdxAux {α : Type} (p : α → Bool) : List α → ℕ → Option ℕ
  | [], _ => none
  | a :: as, i => if p a then some i else findIdxAux p as (i + 1)

/-- Index of the first list element satisfying p. -/
def findIdxQ {α : Type} (p : α → Bool) (l : List α) : Option ℕ := findIdxAux p l 0

/-! ### Quote Locator (highlightQuote, PdfViewer.tsx) -/

/-- quote.toLowerCase().replace(/\s+/g, " ").trim() — the normalization the
code applies to the quote. -/
def normalizedQuote (q : List Char) : List Char := trimJs (collapseWs (q.map lowerChar))

/-- span.textContent?.toLowerCase().replace(/\s+/g, " ") || " " — the
normalization the code applies to each fragment text: no trim, and an
empty result is replaced by a single space. -/
def fragText (t : List Char) : List Char :=
  if collapseWs (t.map lowerChar) = [] then [' '] else collapseWs (t.map lowerChar)

/-- The [start, end) offset interval of each fragment inside the
concatenation, starting at the given offset. -/
def spanIntervals : ℕ → List (List Char) → List (ℕ × ℕ)
  | _, [] => []
  | off, t :: ts => (off, off + t.length) :: spanIntervals (off + t.length) ts

/-- Math.max(0, Math.min(quoteEnd, end) - Math.max(quoteIndex, start)). -/
def overlapAmount (quoteIndex quoteEnd s e : ℕ) : ℤ :=
  max 0 (min (quoteEnd : ℤ) (e : ℤ) - max (quoteIndex : ℤ) (s : ℤ))

/-- Result of one highlight pass: which fragments are marked, and the
fragment scrolled into view.  The code clears all previous marks before
computing a new pass, so one pass fully describes the visible state. -/
structure HighlightResult where
  marked : List Bool
  scrollTarget : Option ℕ
deriving DecidableEq

/-- The all-clear result: no fragment marked, nothing scrolled. -/
def emptyHighlight (frags : List (List Char)) : HighlightResult :=
  ⟨frags.map fun _ => false, none⟩

/-- highlightQuote from PdfViewer.tsx as a pure function: fragment texts
and quote in, marked set and scroll target out.  A fragment is marked when
its interval overlaps the first occurrence of the normalized quote in the
concatenation of the normalized fragment texts; the fragment containing
the occurrence start is scrolled into view. -/
def highlightQuote (frags : List (List Char)) (quote : List Char) : HighlightResult :=
  let nq := normalizedQuote quote
  if nq = [] then emptyHighlight frags
  else
    let fns := frags.map fragText
    match firstIdx fns.flatten nq with
    | none => emptyHighlight frags
    | some quoteIndex =>
      let quoteEnd := quoteIndex + nq.length
      let ivs := spanIntervals 0 fns
      { marked := ivs.map fun p => decide (0 < overlapAmount quoteIndex quoteEnd p.1 p.2)
        scrollTarget := findIdxQ (fun p =>
          decide (0 < overlapAmount quoteIndex quoteEnd p.1 p.2) &&
          decide (p.1 ≤ quoteIndex) && decide (quoteIndex < p.2)) ivs }

/-- Claim C1's reading of the locator: one and the same normalization
(lowercase, collapse whitespace, trim) applied to the quote and to each
fragment text.  Identical to `highlightQuote` except that fragments are
normalized with `normalizedQuote` as well. -/
def highlightQuoteClaim (frags : List (List Char)) (quote : List Char) : HighlightResult :=
  let nq := normalizedQuote quote
  if nq = [] then emptyHighlight frags
  else
    let fns := frags.map normalizedQuote
    match firstIdx fns.flatten nq with
    | none => emptyHighlight frags
    | some quoteIndex =>
      let quoteEnd := quoteIndex + nq.length
      let ivs := spanIntervals 0 fns
      { marked := ivs.map fun p => decide (0 < overlapAmount quoteIndex quoteEnd p.1 p.2)
        scrollTarget := findIdxQ (fun p =>
          decide (0 < overlapAmount quoteIndex quoteEnd p.1 p.2) &&
          decide (p.1 ≤ quoteIndex) && decide (quoteIndex < p.2)) ivs }

/-! ### Layout Reconstructor (the page walk inside parsePdf) -/

/-- One positioned text fragment of a page, after the source's mapping of
pdf.js items (str, transform x/y, height, width). -/
structure GlyphRun where
  str : List Char
  x : ℚ
  y : ℚ
  height : ℚ
  width : ℚ
deriving DecidableEq

/-- The comparator passed to items.sort: if the vertical distance exceeds
half the FIRST argument's height, order by y descending, else by x
ascending. -/
def runCompare (a b : GlyphRun) : ℚ :=
  if |a.y - b.y| > a.height * (1/2) then b.y - a.y else a.x - b.x

/-- Stable insertion: the new (later) element passes every element it does
not strictly precede, so elements comparing equal keep their order. -/
def sortInsert (r : GlyphRun) : List GlyphRun → List GlyphRun
  | [] => [r]
  | b :: bs => if runCompare r b < 0 then r :: b :: bs else b :: sortInsert r bs

/-- Model of items.sort(comparator): stable insertion sort. -/
def sortRuns (l : List GlyphRun) : List GlyphRun :=
  l.foldl (fun acc r => sortInsert r acc) []

/-- Accumulator of the page walk: text so far, previous baseline
(lastY) and previous right edge (lastX), both initialized to the
sentinel -1. -/
structure WalkState where
  pageText : List Char
  lastY : ℚ
  lastX : ℚ
deriving DecidableEq

/-- One iteration of the page walk of parsePdf: classify the vertical gap
against the current run's height, insert the joiner, append the run's
text, update lastY/lastX.  The float literals 0.6, 1.6, 0.2 appear as the
rationals 6/10, 16/10, 2/10. -/
def walkStep (st : WalkState) (item : GlyphRun) : WalkState :=
  let pageText :=
    if st.lastY ≠ -1 then
      if |item.y - st.lastY| > item.height * (6/10) then
        if |item.y - st.lastY| > item.height * (16/10) then
          if (trimJs st.pageText).getLast? = some '-' then
            (trimJs st.pageText).dropLast
          else st.pageText ++ ('\n' :: '\n' :: [])
        else
          if (trimJs st.pageText).getLast? = some '-' then
            (trimJs st.pageText).dropLast
          else st.pageText ++ [' ']
      else
        if st.lastX ≠ -1 ∧ item.x > st.lastX + item.height * (2/10) then
          if item.str.head? ≠ some ' ' ∧ st.pageText.getLast? ≠ some ' ' then
            st.pageText ++ [' ']
          else st.pageText
        else st.pageText
    else st.pageText
  ⟨pageText ++ item.str, item.y, item.x + item.width⟩

/-- Claim C4's reading of the walk: the de-hyphenation test looks at the
raw accumulated text (no trim) and removes exactly the hyphen, and the
same-line space is suppressed by any whitespace at the seam (not only by
the space character) with no sentinel condition on lastX. -/
def walkStepClaim (st : WalkState) (item : GlyphRun) : WalkState :=
  let pageText :=
    if st.lastY ≠ -1 then
      if |item.y - st.lastY| > item.height * (6/10) then
        if |item.y - st.lastY| > item.height * (16/10) then
          if st.pageText.getLast? = some '-' then
            st.pageText.dropLast
          else st.pageText ++ ('\n' :: '\n' :: [])
        else
          if st.pageText.getLast? = some '-' then
            st.pageText.dropLast
          else st.pageText ++ [' ']
      else
        if item.x > st.lastX + item.height * (2/10) then
          if (∀ c ∈ item.str.head?, jsWs c = false) ∧
             (∀ c ∈ st.pageText.getLast?, jsWs c = false) then
            st.pageText ++ [' ']
          else st.pageText
        else st.pageText
    else st.pageText
  ⟨pageText ++ item.str, item.y, item.x + item.width⟩

/-- Initial accumulator of the page walk. -/
def pageInit : WalkState := ⟨[], -1, -1⟩

/-- The page text produced by parsePdf for one page: sort the runs with
the comparator, then fold the joiner walk. -/
def parsePdfPage (items : List GlyphRun) : List Char :=
  ((sortRuns items).foldl walkStep pageInit).pageText

/-- Page text under claim C4's reading of the walk. -/
def parsePdfPageClaim (items : List GlyphRun) : List Char :=
  ((sortRuns items).foldl walkStepClaim pageInit).pageText

/-- The document text of parsePdf: fullText += pageText + "\n\n" for
every page of the document. -/
def parsePdfText (pages : List (List GlyphRun)) : List Char :=
  pages.foldl (fun acc p => acc ++ parsePdfPage p ++ ('\n' :: '\n' :: [])) []

/-- No run text contains a hyphen, so de-hyphenation can never fire. -/
def HyphenFree (runs : List GlyphRun) : Prop := ∀ r ∈ runs, '-' ∉ r.str

/-- The texts appear in s, in the given order, as disjoint segments. -/
def InOrder : List (List Char) → List Char → Prop
  | [], _ => True
  | t :: ts, s => ∃ a b, s = a ++ t ++ b ∧ InOrder ts b

/-- The joiners the page walk can insert between two runs. -/
def IsJoiner (j : List Char) : Prop :=
  j = [] ∨ j = [' '] ∨ j = ('\n' :: '\n' :: [])

/-- s is joiner-text-joiner-text-...: every listed text present, in
order, separated exactly by single joiners. -/
def JoinSepTail : List (List Char) → List Char → Prop
  | [], s => s = []
  | t :: ts, s => ∃ j b, IsJoiner j ∧ s = j ++ t ++ b ∧ JoinSepTail ts b

/-- s is exactly the given texts in order with one joiner between
consecutive texts and nothing before or after. -/
def JoinSep : List (List Char) → List Char → Prop
  | [], s => s = []
  | t :: ts, s => ∃ b, s = t ++ b ∧ JoinSepTail ts b

/-- The list is pairwise strictly ordered by the reading-order
comparator (each earlier run strictly precedes each later run, in both
comparison directions, as a consistent JS comparator requires). -/
def StrictReadingOrder (l : List GlyphRun) : Prop :=
  l.Pairwise fun a b => runCompare a b < 0 ∧ 0 < runCompare b a

/-! ### Citation Token Parser (MessageBubble.parsedContent, Message.tsx) -/

/-- Result of one successful attempt of the citation regex at the start
of the input: the matched token, the two captured digit strings, the raw
captured quote (group 3) and the remaining input. -/
structure CitMatch where
  tok : List Char
  d1 : List Char
  d2 : List Char
  q : Option (List Char)
  rest : List Char
deriving DecidableEq

/-- One attempt, at the start of s, of the citation regex
/\[\s*(\d+)\s*:\s*(\d+)\s*(?:\|\s*[quote]([^quote]+)[quote])?\s*\]/ where
[quote] stands for the class holding the double and the single quote mark
(each delimiter drawn from the class independently).  All the repetitions
munch greedily; the only backtracking the regex ever needs is dropping
the optional quote group, which the layout below reproduces: the group is
entered exactly when a pipe follows, and when the group cannot complete,
the group-skipping alternative needs a close bracket where the pipe
stands, so the whole attempt fails. -/
def matchCit : List Char → Option CitMatch
  | [] => none
  | c :: s0 =>
    if c = '[' then
      let w1 := s0.takeWhile jsWs
      let s1 := s0.dropWhile jsWs
      let d1 := s1.takeWhile jsDigit
      let s2 := s1.dropWhile jsDigit
      if d1 = [] then none
      else
        let w2 := s2.takeWhile jsWs
        let s3 := s2.dropWhile jsWs
        match s3 with
        | ':' :: s4 =>
          let w3 := s4.takeWhile jsWs
          let s5 := s4.dropWhile jsWs
          let d2 := s5.takeWhile jsDigit
          let s6 := s5.dropWhile jsDigit
          if d2 = [] then none
          else
            let w4 := s6.takeWhile jsWs
            let s7 := s6.dropWhile jsWs
            match s7 with
            | '|' :: s8 =>
              let w5 := s8.takeWhile jsWs
              let s9 := s8.dropWhile jsWs
              match s9 with
              | qo :: s10 =>
                if jsQuote qo then
                  let qc := s10.takeWhile (fun ch => ! jsQuote ch)
                  let s11 := s10.dropWhile (fun ch => ! jsQuote ch)
                  if qc = [] then none
                  else
                    match s11 with
                    | qcl :: s12 =>
                      let w6 := s12.takeWhile jsWs
                      let s13 := s12.dropWhile jsWs
                      match s13 with
                      | ']' :: s14 =>
                        some ⟨'[' :: w1 ++ d1 ++ w2 ++ ':' :: w3 ++ d2 ++ w4 ++
                              '|' :: w5 ++ qo :: qc ++ qcl :: w6 ++ [']'],
                              d1, d2, some qc, s14⟩
                      | _ => none
                    | [] => none
                else none
              | [] => none
            | ']' :: s9 =>
              some ⟨'[' :: w1 ++ d1 ++ w2 ++ ':' :: w3 ++ d2 ++ w4 ++ [']'],
                    d1, d2, none, s9⟩
            | _ => none
        | _ => none
    else none

/-- Claim C7's reading of the grammar: identical to `matchCit` except
that the closing delimiter of the quoted string must match the opening
one (a quoted string is "..." or an apostrophe-quoted string, with equal
delimiters on both sides). -/
def matchCitClaim : List Char → Option CitMatch
  | [] => none
  | c :: s0 =>
    if c = '[' then
      let w1 := s0.takeWhile jsWs
      let s1 := s0.dropWhile jsWs
      let d1 := s1.takeWhile jsDigit
      let s2 := s1.dropWhile jsDigit
      if d1 = [] then none
      else
        let w2 := s2.takeWhile jsWs
        let s3 := s2.dropWhile jsWs
        match s3 with
        | ':' :: s4 =>
          let w3 := s4.takeWhile jsWs
          let s5 := s4.dropWhile jsWs
          let d2 := s5.takeWhile jsDigit
          let s6 := s5.dropWhile jsDigit
          if d2 = [] then none
          else
            let w4 := s6.takeWhile jsWs
            let s7 := s6.dropWhile jsWs
            match s7 with
            | '|' :: s8 =>
              let w5 := s8.takeWhile jsWs
              let s9 := s8.dropWhile jsWs
              match s9 with
              | qo :: s10 =>
                if jsQuote qo then
                  let qc := s10.takeWhile (fun ch => ! jsQuote ch)
                  let s11 := s10.dropWhile (fun ch => ! jsQuote ch)
                  if qc = [] then none
                  else
                    match s11 with
                    | qcl :: s12 =>
                      if qcl = qo then
                        let w6 := s12.takeWhile jsWs
                        let s13 := s12.dropWhile jsWs
                        match s13 with
                        | ']' :: s14 =>
                          some ⟨'[' :: w1 ++ d1 ++ w2 ++ ':' :: w3 ++ d2 ++ w4 ++
                                '|' :: w5 ++ qo :: qc ++ qcl :: w6 ++ [']'],
                                d1, d2, some qc, s14⟩
                        | _ => none
                      else none
                    | [] => none
                else none
              | [] => none
            | ']' :: s9 =>
              some ⟨'[' :: w1 ++ d1 ++ w2 ++ ':' :: w3 ++ d2 ++ w4 ++ [']'],
                    d1, d2, none, s9⟩
            | _ => none
        | _ => none
    else none

/-- A span of the tokenized response before library validation:
plain text, or one recognized citation with its raw captures. -/
inductive RawSpan where
  | text (s : List Char) : RawSpan
  | cite (d1 d2 : List Char) (q : Option (List Char)) : RawSpan
deriving DecidableEq

/-- Prepend one unmatched character to a span sequence, extending a
leading text span when one exists. -/
def pushChar (c : Char) : List RawSpan → List RawSpan
  | RawSpan.text t :: rest => RawSpan.text (c :: t) :: rest
  | spans => RawSpan.text [c] :: spans

/-- The left-to-right scan of String.prototype.replace with the global
citation regex: at each position try the regex; on a match emit a
citation and continue after it, otherwise the character stays literal
text.  The fuel argument only establishes termination; `rawScan` supplies
one unit per character, which is enough because every match consumes at
least the open bracket. -/
def rawScanFuel : ℕ → List Char → List RawSpan
  | 0, s => if s = [] then [] else [RawSpan.text s]
  | _ + 1, [] => []
  | fuel + 1, c :: cs =>
    match matchCit (c :: cs) with
    | some m => RawSpan.cite m.d1 m.d2 m.q :: rawScanFuel fuel m.rest
    | none => pushChar c (rawScanFuel fuel cs)

/-- Tokenization of a response text into text and citation spans. -/
def rawScan (s : List Char) : List RawSpan := rawScanFuel s.length s

/-- The same scan under claim C7's reading of the grammar. -/
def rawScanClaimFuel : ℕ → List Char → List RawSpan
  | 0, s => if s = [] then [] else [RawSpan.text s]
  | _ + 1, [] => []
  | fuel + 1, c :: cs =>
    match matchCitClaim (c :: cs) with
    | some m => RawSpan.cite m.d1 m.d2 m.q :: rawScanClaimFuel fuel m.rest
    | none => pushChar c (rawScanClaimFuel fuel cs)

/-- Tokenization under claim C7's reading of the grammar. -/
def rawScanClaim (s : List Char) : List RawSpan := rawScanClaimFuel s.length s

/-- parseInt on a captured digit string. -/
def digitsToNat (ds : List Char) : ℕ := ds.foldl (fun n c => 10 * n + (c.toNat - 48)) 0

/-- documents[docIndex - 1] with JS index semantics (docIndex 0 reads
index -1, which is undefined): the bang-bang validity test of the code. -/
def docLookupValid (libraryCount docIndex : ℕ) : Bool :=
  decide (0 ≤ (docIndex : ℤ) - 1 ∧ (docIndex : ℤ) - 1 < (libraryCount : ℤ))

/-- quote ? quote.trim() : undefined — the stored quote value.  The raw
capture is never empty, hence truthy, so present quotes are trimmed. -/
def citeQuote (q : Option (List Char)) : Option (List Char) := q.map trimJs

/-- The rendered span type of the spec: literal text or a citation
carrying docIndex, page, optional quote, and the derived valid flag. -/
inductive CitationSpan where
  | text (s : List Char) : CitationSpan
  | citation (docIndex page : ℕ) (quote : Option (List Char)) (valid : Bool) : CitationSpan
deriving DecidableEq

/-- Number conversion and validity lookup on one raw span, as the
re-injection pass of the code performs them. -/
def attachValid (libraryCount : ℕ) : RawSpan → CitationSpan
  | RawSpan.text s => CitationSpan.text s
  | RawSpan.cite d1 d2 q =>
    CitationSpan.citation (digitsToNat d1) (digitsToNat d2) (citeQuote q)
      (docLookupValid libraryCount (digitsToNat d1))

/-- The Citation Token Parser: response text and library size to span
sequence.  Totality of this definition models that parsing never throws. -/
def parsedSpans (libraryCount : ℕ) (s : List Char) : List CitationSpan :=
  (rawScan s).map (attachValid libraryCount)

/-- The parser under claim C7's reading of the grammar. -/
def parsedSpansClaim (libraryCount : ℕ) (s : List Char) : List CitationSpan :=
  (rawScanClaim s).map (attachValid libraryCount)

/-- Every character of the list is regex whitespace. -/
def AllWs (w : List Char) : Prop := ∀ c ∈ w, jsWs c = true

/-- Every character of the list is a decimal digit. -/
def AllDigits (d : List Char) : Prop := ∀ c ∈ d, jsDigit c = true

/-- Declarative statement of the citation marker shape the code
recognizes: open bracket, optional whitespace, digits, optional
whitespace, colon, optional whitespace, digits, optional whitespace, an
optional pipe-introduced quote part whose two delimiters are each drawn
independently from the quote class, optional whitespace, close bracket. -/
def CitForm (tok d1 d2 : List Char) (q : Option (List Char)) : Prop :=
  ∃ w1 w2 w3 w4 w5 opt,
    AllWs w1 ∧ AllWs w2 ∧ AllWs w3 ∧ AllWs w4 ∧ AllWs w5 ∧
    d1 ≠ [] ∧ AllDigits d1 ∧ d2 ≠ [] ∧ AllDigits d2 ∧
    tok = '[' :: w1 ++ d1 ++ w2 ++ ':' :: w3 ++ d2 ++ w4 ++ opt ++ w5 ++ [']'] ∧
    ((opt = [] ∧ q = none) ∨
      (∃ w6 qo qc qcl, AllWs w6 ∧ jsQuote qo = true ∧ jsQuote qcl = true ∧
        qc ≠ [] ∧ (∀ ch ∈ qc, jsQuote ch = false) ∧
        opt = '|' :: w6 ++ qo :: qc ++ [qcl] ∧ q = some qc))

/-! ### The placeholder pipeline (tokenize, render, re-inject) -/

/-- One recognized citation together with the literal text standing
immediately before it in the response. -/
structure CitePiece where
  pre : List Char
  d1 : List Char
  d2 : List Char
  q : Option (List Char)
deriving DecidableEq

/-- Interleaved decomposition of the response text: the text-and-citation
pieces in order, plus the trailing text after the last citation.  Fuel as
in `rawScanFuel`. -/
def scanPartsFuel : ℕ → List Char → List CitePiece × List Char
  | 0, s => ([], s)
  | _ + 1, [] => ([], [])
  | fuel + 1, c :: cs =>
    match matchCit (c :: cs) with
    | some m =>
      let pr := scanPartsFuel fuel m.rest
      (⟨[], m.d1, m.d2, m.q⟩ :: pr.1, pr.2)
    | none =>
      let pr := scanPartsFuel fuel cs
      match pr.1 with
      | [] => ([], c :: pr.2)
      | p :: rest => (⟨c :: p.pre, p.d1, p.d2, p.q⟩ :: rest, pr.2)

/-- Interleaved decomposition of the response text. -/
def scanParts (s : List Char) : List CitePiece × List Char := scanPartsFuel s.length s

/-- CITATIONTOKEN + matched docIdx digits + X + matched page digits + X +
the random suffix: the placeholder substituted for one citation. -/
def mkToken (d1 d2 rand : List Char) : List Char :=
  ("CITATIONTOKEN").data ++ d1 ++ 'X' :: d2 ++ 'X' :: rand

/-- The placeholder tokens of a scan, the i-th citation receiving the
i-th draw of the random source r. -/
def tokensOf (r : ℕ → List Char) (ps : List CitePiece) : List (List Char) :=
  ps.enum.map fun ip => mkToken ip.2.d1 ip.2.d2 (r ip.1)

/-- The placeholder-substituted text handed to the markdown renderer
(which is modelled as the identity, see the header comment). -/
def processedText (toks : List (List Char)) (ps : List CitePiece) (tail : List Char) :
    List Char :=
  ((toks.zip ps).map fun tp => tp.2.pre ++ tp.1).flatten ++ tail

/-- Map.prototype.set on an insertion-ordered association list: an
existing key keeps its position and gets the new value, a new key is
appended. -/
def mapSet (m : List (List Char × CitePiece)) (k : List Char) (v : CitePiece) :
    List (List Char × CitePiece) :=
  match m with
  | [] => [(k, v)]
  | (k0, v0) :: rest => if k0 = k then (k0, v) :: rest else (k0, v0) :: mapSet rest k v

/-- The citationMap of the code: tokens inserted in match order. -/
def buildMap (kvs : List (List Char × CitePiece)) : List (List Char × CitePiece) :=
  kvs.foldl (fun m kv => mapSet m kv.1 kv.2) []

/-- Decimal rendering of a number interpolated into a template literal. -/
def natToChars (n : ℕ) : List Char := Nat.toDigits 10 n

/-- value.quote.replace of the double quote mark by the entity &quot; —
the rough escaping of the quote attribute. -/
def escQuote : List Char → List Char
  | [] => []
  | c :: cs => if c = '"' then ("&quot;").data ++ escQuote cs else c :: escQuote cs

/-- data-citation-quote attribute: present only for a truthy
(non-empty) stored quote. -/
def quoteAttr : Option (List Char) → List Char
  | none => []
  | some q => if q = [] then []
      else (" data-citation-quote=").data ++ '"' :: escQuote q ++ ['"']

/-- The interactive button swapped in for one placeholder.  The fixed
styling classes and the tooltip of the source template are abridged; the
data-carrying pieces (doc index, page, quote attribute, the valid flag as
the style choice, the visible REF label) are kept, which is all the claims
depend on. -/
def buttonHtml (libraryCount : ℕ) (p : CitePiece) : List Char :=
  let d := digitsToNat p.d1
  let pg := digitsToNat p.d2
  ("<button data-citation-doc=").data ++ '"' :: natToChars d ++
  '"' :: (" data-citation-page=").data ++ '"' :: natToChars pg ++
  '"' :: quoteAttr (citeQuote p.q) ++
  (if docLookupValid libraryCount d then (" class=cite-valid>REF ").data
   else (" class=cite-invalid>REF ").data) ++
  natToChars d ++ ':' :: natToChars pg ++ ("</button>").data

/-- Helper for `replaceAll`: every non-overlapping occurrence of t, found
left to right, is replaced by r.  The fuel argument only establishes
termination; one unit per character of the input is enough because a
non-empty t consumes at least one character per replacement. -/
def replaceAllFuel (t r : List Char) : ℕ → List Char → List Char
  | 0, s => s
  | _ + 1, [] => []
  | fuel + 1, c :: cs =>
    if t ≠ [] ∧ t.isPrefixOf (c :: cs) then
      r ++ replaceAllFuel t r fuel ((c :: cs).drop t.length)
    else c :: replaceAllFuel t r fuel cs

/-- String.prototype.split on t followed by join with r. -/
def replaceAll (t r s : List Char) : List Char := replaceAllFuel t r s.length s

/-- The re-injection pass: each map entry's token is split-and-joined
with its button, in insertion order. -/
def injectAll (libraryCount : ℕ) (entries : List (List Char × CitePiece))
    (html : List Char) : List Char :=
  entries.foldl (fun h e => replaceAll e.1 (buttonHtml libraryCount e.2) h) html

/-- The full parsedContent pipeline of the code: tokenize the citations,
substitute placeholders, render (identity model), then re-inject a button
for each map entry. -/
def renderedContent (libraryCount : ℕ) (r : ℕ → List Char) (s : List Char) : List Char :=
  let ps := (scanParts s).1
  let tail := (scanParts s).2
  let toks := tokensOf r ps
  injectAll libraryCount (buildMap (toks.zip ps)) (processedText toks ps tail)

/-- The collision-free rendering: every citation turned into its button
in place. -/
def canonContent (libraryCount : ℕ) (ps : List CitePiece) (tail : List Char) : List Char :=
  (ps.map fun p => p.pre ++ buttonHtml libraryCount p).flatten ++ tail

/-- Freshness of the placeholder tokens of one run, checked step by step
along the re-injection pass: each token occurs exactly at its substituted
position of the current string (everything before it already rewritten to
buttons, everything after it still carrying the later tokens) and nowhere
later.  This is what the random suffixes are meant to guarantee. -/
def goodToks (libraryCount : ℕ) : List Char → List (List Char) → List CitePiece →
    List Char → Bool
  | _, [], [], _ => true
  | _, [], _ :: _, _ => false
  | _, _ :: _, [], _ => false
  | done, t :: ts, p :: ps, tail =>
    (decide (t ≠ []) &&
      (firstIdx (done ++ p.pre ++ t ++ processedText ts ps tail) t ==
        some (done.length + p.pre.length)) &&
      (firstIdx (processedText ts ps tail) t == none)) &&
    goodToks libraryCount (done ++ p.pre ++ buttonHtml libraryCount p) ts ps tail

/-- The freshness condition of one run of the pipeline on one response
text: the tokens are pairwise distinct and each is fresh along the
re-injection pass. -/
def TokensFresh (libraryCount : ℕ) (r : ℕ → List Char) (s : List Char) : Prop :=
  (tokensOf r (scanParts s).1).Nodup ∧
  goodToks libraryCount [] (tokensOf r (scanParts s).1) (scanParts s).1 (scanParts s).2 = true

/-- Head test used by the munch lemmas: the first character, when there
is one, fails p. -/
def HeadNot (p : Char → Bool) : List Char → Prop
  | [] => True
  | c :: _ => p c = false

/-! ### Basic lemmas on the character classes and string primitives -/

theorem jsWs_of_jsDigit {c : Char} (h : jsDigit c = true) : jsWs c = false := by
  simp only [jsDigit, Bool.and_eq_true, decide_eq_true_eq] at h
  simp only [jsWs, Bool.or_eq_false_iff, decide_eq_false_iff_not]
  omega

theorem jsDigit_of_jsWs {c : Char} (h : jsWs c = true) : jsDigit c = false := by
  simp only [jsWs, Bool.or_eq_true, decide_eq_true_eq] at h
  simp only [jsDigit, Bool.and_eq_false_iff, decide_eq_false_iff_not]
  omega

theorem jsWs_of_jsQuote {c : Char} (h : jsQuote c = true) : jsWs c = false := by
  simp only [jsQuote, Bool.or_eq_true, decide_eq_true_eq] at h
  simp only [jsWs, Bool.or_eq_false_iff, decide_eq_false_iff_not]
  omega

theorem lowerChar_of_jsWs {c : Char} (h : jsWs c = true) : lowerChar c = c := by
  simp only [jsWs, Bool.or_eq_true, decide_eq_true_eq] at h
  simp only [lowerChar, ite_eq_right_iff]
  omega

theorem munchPieces (p : Char → Bool) :
    ∀ (w r : List Char), (∀ c ∈ w, p c = true) → HeadNot p r →
      (w ++ r).takeWhile p = w ∧ (w ++ r).dropWhile p = r := by
  intro w
  induction w with
  | nil =>
    intro r _ hr
    cases r with
    | nil => simp
    | cons c cs =>
      simp only [HeadNot] at hr
      simp [List.takeWhile, List.dropWhile, hr]
  | cons a as ih =>
    intro r hw hr
    have ha : p a = true := hw a (List.mem_cons_self a as)
    have := ih r (fun c hc => hw c (List.mem_cons_of_mem a hc)) hr
    simp [List.takeWhile, List.dropWhile, ha, this.1, this.2]

theorem isPrefixOf_iff :
    ∀ (l₁ l₂ : List Char), l₁.isPrefixOf l₂ = true ↔ ∃ t, l₂ = l₁ ++ t := by
  intro l₁
  induction l₁ with
  | nil => intro l₂; simp [List.isPrefixOf]
  | cons a as ih =>
    intro l₂
    cases l₂ with
    | nil => simp [List.isPrefixOf]
    | cons b bs =>
      simp only [List.isPrefixOf, Bool.and_eq_true, beq_iff_eq, ih, List.cons_append,
        List.cons.injEq]
      constructor
      · rintro ⟨rfl, t, rfl⟩; exact ⟨t, rfl, rfl⟩
      · rintro ⟨t, rfl, rfl⟩; exact ⟨rfl, t, rfl⟩


theorem bool_eq_false {b : Bool} (h : ¬ b = true) : b = false := by
  cases b
  · rfl
  · exact absurd rfl h

theorem firstIdxAux_some_iff (pat : List Char) :
    ∀ (s : List Char) (i k : ℕ),
      firstIdxAux pat s i = some k ↔
        ∃ m, k = i + m ∧ pat.isPrefixOf (s.drop m) = true ∧
          ∀ j < m, pat.isPrefixOf (s.drop j) = false := by
  intro s
  induction s with
  | nil =>
    intro i k
    simp only [firstIdxAux]
    by_cases hp : pat.isPrefixOf ([] : List Char) = true
    · rw [if_pos hp]
      constructor
      · intro h
        injection h with h'
        exact ⟨0, by omega, by rw [List.drop_nil]; exact hp,
          fun j hj => absurd hj (Nat.not_lt_zero j)⟩
      · rintro ⟨m, rfl, hpre, hall⟩
        rcases Nat.eq_zero_or_pos m with rfl | hm
        · simp
        · have h0 := hall 0 hm
          rw [List.drop_nil] at h0
          rw [h0] at hp
          simp at hp
    · rw [if_neg hp]
      constructor
      · intro h; exact absurd h (by simp)
      · rintro ⟨m, rfl, hpre, hall⟩
        rw [List.drop_nil] at hpre
        exact absurd hpre hp
  | cons c cs ih =>
    intro i k
    simp only [firstIdxAux]
    by_cases hp : pat.isPrefixOf (c :: cs) = true
    · rw [if_pos hp]
      constructor
      · intro h
        injection h with h'
        exact ⟨0, by omega, by rw [List.drop_zero]; exact hp,
          fun j hj => absurd hj (Nat.not_lt_zero j)⟩
      · rintro ⟨m, rfl, hpre, hall⟩
        rcases Nat.eq_zero_or_pos m with rfl | hm
        · simp
        · have h0 := hall 0 hm
          rw [List.drop_zero] at h0
          rw [h0] at hp
          simp at hp
    · rw [if_neg hp]
      rw [ih]
      constructor
      · rintro ⟨m, rfl, hpre, hall⟩
        refine ⟨m + 1, by omega, ?_, ?_⟩
        · rw [List.drop_succ_cons]; exact hpre
        · intro j hj
          cases j with
          | zero => rw [List.drop_zero]; exact bool_eq_false hp
          | succ j =>
            rw [List.drop_succ_cons]
            exact hall j (by omega)
      · rintro ⟨m, rfl, hpre, hall⟩
        cases m with
        | zero =>
          rw [List.drop_zero] at hpre
          exact absurd hpre hp
        | succ m =>
          refine ⟨m, by omega, ?_, ?_⟩
          · rw [List.drop_succ_cons] at hpre; exact hpre
          · intro j hj
            have := hall (j + 1) (by omega)
            rw [List.drop_succ_cons] at this
            exact this

theorem firstIdx_some_iff (s pat : List Char) (k : ℕ) :
    firstIdx s pat = some k ↔
      pat.isPrefixOf (s.drop k) = true ∧ ∀ j < k, pat.isPrefixOf (s.drop j) = false := by
  rw [firstIdx, firstIdxAux_some_iff]
  constructor
  · rintro ⟨m, rfl, h1, h2⟩
    simpa using And.intro h1 h2
  · intro h
    exact ⟨k, by omega, h.1, h.2⟩

theorem firstIdx_none_iff (s pat : List Char) :
    firstIdx s pat = none ↔ ∀ k, pat.isPrefixOf (s.drop k) = false := by
  constructor
  · intro h k
    by_contra hk
    have hk' : pat.isPrefixOf (s.drop k) = true := by
      cases hcase : pat.isPrefixOf (s.drop k)
      · exact absurd hcase hk
      · rfl
    have hex : ∃ m, pat.isPrefixOf (s.drop m) = true := ⟨k, hk'⟩
    have hfind := Nat.find_spec hex
    have : firstIdx s pat = some (Nat.find hex) := by
      rw [firstIdx_some_iff]
      refine ⟨hfind, fun j hj => ?_⟩
      have := Nat.find_min hex hj
      exact bool_eq_false this
    rw [h] at this
    exact Option.noConfusion this
  · intro h
    cases hf : firstIdx s pat with
    | none => rfl
    | some k =>
      rw [firstIdx_some_iff] at hf
      rw [h k] at hf
      exact absurd hf.1 (by simp)

/-! ### Quote Locator lemmas and claims -/

theorem map_false_len {α β : Type} :
    ∀ (l : List α) (l' : List β), l.length = l'.length →
      l.map (fun _ => false) = l'.map (fun _ => false) := by
  intro l
  induction l with
  | nil => intro l' h; cases l' with
    | nil => rfl
    | cons b bs => simp at h
  | cons a as ih =>
    intro l' h
    cases l' with
    | nil => simp at h
    | cons b bs =>
      simp only [List.map_cons, ih bs (by simpa using h)]

theorem findIdxAux_map {α β : Type} (g : α → β) (p : β → Bool) :
    ∀ (l : List α) (i : ℕ), findIdxAux p (l.map g) i = findIdxAux (fun a => p (g a)) l i := by
  intro l
  induction l with
  | nil => intro i; rfl
  | cons a as ih =>
    intro i
    simp only [List.map_cons, findIdxAux, ih]

theorem overlap_pos_of {k L s e : ℕ} (hs : s ≤ k) (he : k < e) (hL : 1 ≤ L) :
    0 < overlapAmount k (k + L) s e := by
  unfold overlapAmount
  push_cast
  omega

theorem overlap_not_pos {k L s e : ℕ} (he : e ≤ k) :
    ¬ 0 < overlapAmount k (k + L) s e := by
  unfold overlapAmount
  push_cast
  omega

theorem scrollIdxAux (k L : ℕ) (hL : 1 ≤ L) :
    ∀ (ts : List (List Char)) (off i : ℕ), off ≤ k →
      findIdxAux (fun p => decide (0 < overlapAmount k (k + L) p.1 p.2) &&
          decide (p.1 ≤ k) && decide (k < p.2)) (spanIntervals off ts) i =
        findIdxAux (fun p => decide (0 < overlapAmount k (k + L) p.1 p.2))
          (spanIntervals off ts) i := by
  intro ts
  induction ts with
  | nil => intro off i _; rfl
  | cons t ts ih =>
    intro off i hoff
    simp only [spanIntervals, findIdxAux]
    by_cases hc : k < off + t.length
    · have hover := overlap_pos_of hoff hc hL
      simp [hover, hoff, hc]
    · have hover := overlap_not_pos (k := k) (L := L) (s := off) (e := off + t.length)
        (by omega)
      rw [if_neg (by simp [hover]), if_neg (by simp [hover])]
      exact ih (off + t.length) (i + 1) (by omega)

theorem intervalCover :
    ∀ (ts : List (List Char)) (off k : ℕ), off ≤ k → k < off + (ts.map List.length).sum →
      ∃ (i s e : ℕ), (spanIntervals off ts)[i]? = some (s, e) ∧ s ≤ k ∧ k < e := by
  intro ts
  induction ts with
  | nil =>
    intro off k h1 h2
    simp at h2
    omega
  | cons t ts ih =>
    intro off k h1 h2
    by_cases hc : k < off + t.length
    · exact ⟨0, off, off + t.length, by simp [spanIntervals], h1, hc⟩
    · have h2' : k < (off + t.length) + (ts.map List.length).sum := by
        simp only [List.map_cons, List.sum_cons] at h2
        omega
      rcases ih (off + t.length) k (by omega) h2' with ⟨i, s, e, hget, hs, he⟩
      exact ⟨i + 1, s, e, by simpa [spanIntervals] using hget, hs, he⟩

theorem occ_bound {s pat : List Char} {k : ℕ} (hp : pat.isPrefixOf (s.drop k) = true)
    (hne : pat ≠ []) : k + pat.length ≤ s.length := by
  rcases (isPrefixOf_iff _ _).mp hp with ⟨t, ht⟩
  have hlen := congrArg List.length ht
  simp only [List.length_drop, List.length_append] at hlen
  have hpos : 1 ≤ pat.length := by
    cases pat with
    | nil => exact absurd rfl hne
    | cons a as => simp
  omega

theorem collapse_allWs_true :
    ∀ (l : List Char), (∀ c ∈ l, jsWs c = true) → collapseWsAux true l = [] := by
  intro l
  induction l with
  | nil => intro _; rfl
  | cons c cs ih =>
    intro h
    have hc : jsWs c = true := h c (List.mem_cons_self c cs)
    simp only [collapseWsAux, hc, if_true]
    exact ih fun x hx => h x (List.mem_cons_of_mem c hx)

theorem normalizedQuote_allWs {q : List Char} (h : ∀ c ∈ q, jsWs c = true) :
    normalizedQuote q = [] := by
  unfold normalizedQuote collapseWs
  have hmap : ∀ c ∈ q.map lowerChar, jsWs c = true := by
    intro c hc
    rcases List.mem_map.mp hc with ⟨a, ha, rfl⟩
    rw [lowerChar_of_jsWs (h a ha)]
    exact h a ha
  cases hq : q.map lowerChar with
  | nil => rfl
  | cons c cs =>
    rw [hq] at hmap
    have hc : jsWs c = true := hmap c (List.mem_cons_self c cs)
    have hcs := collapse_allWs_true cs fun x hx => hmap x (List.mem_cons_of_mem c hx)
    simp only [collapseWsAux, hc, if_true, if_false, hcs]
    rfl

theorem flatten_mem_split {l : List (List Char)} {t : List Char} (h : t ∈ l) :
    ∃ A B, l.flatten = A ++ t ++ B := by
  rcases List.append_of_mem h with ⟨S, T, rfl⟩
  exact ⟨S.flatten, T.flatten, by simp⟩

/-- Claim C1 (corrected), counterexample: the code does not apply one and
the same normalization to the quote and to the fragments — fragments are
not trimmed.  On the page ["a", " b"] the quote "a b" matches under the
code (the untrimmed fragment supplies the inner space) but cannot match
once both sides are normalized identically, so the two readings produce
different results. -/
theorem C1_counterexample :
    highlightQuote [("a").data, (" b").data] ("a b").data ≠
      highlightQuoteClaim [("a").data, (" b").data] ("a b").data := by
  decide

/-- Claim C1 (corrected), amended: the locator lowercases and collapses
whitespace in both the quote and each fragment text, but trims only the
quote (an empty fragment contributes one space instead).  Consequently
(i) the result depends on the quote only through its normalization, so a
quote differing only in case or internal whitespace runs gives the same
result, (ii) the result depends on the fragments only through their
normalization, and (iii) a normalized quote found inside a single
normalized fragment is always matched: some fragment gets marked. -/
theorem C1_amended :
    (∀ frags q q', normalizedQuote q = normalizedQuote q' →
      highlightQuote frags q = highlightQuote frags q') ∧
    (∀ frags frags' q, frags.map fragText = frags'.map fragText →
      highlightQuote frags q = highlightQuote frags' q) ∧
    (∀ frags q t, t ∈ frags → normalizedQuote q ≠ [] →
      hasOccur (fragText t) (normalizedQuote q) = true →
      ∃ i : ℕ, (highlightQuote frags q).marked[i]? = some true) := by
  refine ⟨?_, ?_, ?_⟩
  · intro frags q q' h
    simp only [highlightQuote, h]
  · intro frags frags' q hm
    have hlen : frags.length = frags'.length := by
      have := congrArg List.length hm
      simpa using this
    have hemp : emptyHighlight frags = emptyHighlight frags' := by
      unfold emptyHighlight
      rw [map_false_len _ _ hlen]
    simp only [highlightQuote, hm, hemp]
  · intro frags q t ht hnq hocc
    -- the quote occurs in the concatenation
    have hmem : fragText t ∈ frags.map fragText := List.mem_map_of_mem fragText ht
    rcases flatten_mem_split hmem with ⟨A, B, hAB⟩
    rcases Option.isSome_iff_exists.mp (by simpa [hasOccur] using hocc) with ⟨k0, hk0⟩
    have hpre0 := (firstIdx_some_iff _ _ _).mp hk0
    rcases (isPrefixOf_iff _ _).mp hpre0.1 with ⟨u, hu⟩
    have hsplit : fragText t =
        (fragText t).take k0 ++ (normalizedQuote q ++ u) := by
      rw [← hu, List.take_append_drop]
    have hflat : (frags.map fragText).flatten =
        (A ++ (fragText t).take k0) ++ normalizedQuote q ++ (u ++ B) := by
      conv_lhs => rw [hAB, hsplit]
      simp [List.append_assoc]
    have hoccFlat :
        (normalizedQuote q).isPrefixOf
          (((frags.map fragText).flatten).drop (A ++ (fragText t).take k0).length) = true := by
      rw [hflat, List.append_assoc, List.drop_left]
      exact (isPrefixOf_iff _ _).mpr ⟨u ++ B, rfl⟩
    -- hence firstIdx finds some occurrence
    cases hf : firstIdx ((frags.map fragText).flatten) (normalizedQuote q) with
    | none =>
      rw [firstIdx_none_iff] at hf
      rw [hf] at hoccFlat
      exact absurd hoccFlat (by simp)
    | some k =>
      have hk := (firstIdx_some_iff _ _ _).mp hf
      have hbound := occ_bound hk.1 hnq
      have hL : 1 ≤ (normalizedQuote q).length := by
        cases hcase : normalizedQuote q with
        | nil => exact absurd hcase hnq
        | cons a as => simp
      have hcover := intervalCover (frags.map fragText) 0 k (by omega)
        (by
          have hlenflat : ((frags.map fragText).flatten).length =
              ((frags.map fragText).map List.length).sum := by
            simp [List.length_flatten]
          omega)
      rcases hcover with ⟨i, sIv, eIv, hget, hsIv, heIv⟩
      refine ⟨i, ?_⟩
      unfold highlightQuote
      rw [if_neg (by simpa using hnq)]
      simp only [hf]
      simp only [List.getElem?_map, hget, Option.map_some]
      have := overlap_pos_of hsIv heIv hL
      simp [this]

/-- Witness for C1_amended at the spec's normalization example: the quote
"sample consisted" differs from the fragment "Sample  Consisted" only in
case and repeated internal whitespace and is still matched. -/
theorem C1_witness :
    ∃ i : ℕ,
      (highlightQuote [("Sample  Consisted").data] ("sample consisted").data).marked[i]? =
        some true :=
  C1_amended.2.2 [("Sample  Consisted").data] ("sample consisted").data
    ("Sample  Consisted").data (by decide) (by decide) (by decide)

/-- Claim C2 (confirmed): when the normalized quote is non-empty and
occurs in the concatenation of the normalized fragment texts, the
locator uses the first occurrence (the returned index is an occurrence
and no smaller index is), marks exactly the fragments whose interval
overlaps the match interval under the max/min formula, and scrolls to
the first marked fragment in document order. -/
theorem C2_first_occurrence_overlap_scroll :
    ∀ (frags : List (List Char)) (quote : List Char) (k : ℕ),
      normalizedQuote quote ≠ [] →
      firstIdx ((frags.map fragText).flatten) (normalizedQuote quote) = some k →
      (((normalizedQuote quote).isPrefixOf
          (((frags.map fragText).flatten).drop k) = true ∧
        ∀ j < k, (normalizedQuote quote).isPrefixOf
          (((frags.map fragText).flatten).drop j) = false) ∧
      (highlightQuote frags quote).marked =
        (spanIntervals 0 (frags.map fragText)).map (fun p =>
          decide (0 < overlapAmount k (k + (normalizedQuote quote).length) p.1 p.2)) ∧
      (highlightQuote frags quote).scrollTarget =
        findIdxQ (fun b => b) (highlightQuote frags quote).marked) := by
  intro frags quote k hnq hf
  have hL : 1 ≤ (normalizedQuote quote).length := by
    cases hcase : normalizedQuote quote with
    | nil => exact absurd hcase hnq
    | cons a as => simp
  refine ⟨(firstIdx_some_iff _ _ _).mp hf, ?_, ?_⟩
  · unfold highlightQuote
    rw [if_neg (by simpa using hnq)]
    simp only [hf]
  · unfold highlightQuote
    rw [if_neg (by simpa using hnq)]
    simp only [hf]
    unfold findIdxQ
    rw [findIdxAux_map]
    exact scrollIdxAux k (normalizedQuote quote).length hL (frags.map fragText) 0 0
      (by omega)

/-- Witness for C2 at the spec's example page: fragments
"The ", "sample ", "consisted of 40 subjects." and quote
"sample consisted of"; the match starts at offset 4 and the scroll
target is the first marked fragment. -/
theorem C2_witness :
    (highlightQuote [("The ").data, ("sample ").data, ("consisted of 40 subjects.").data]
        ("sample consisted of").data).scrollTarget =
      findIdxQ (fun b => b)
        (highlightQuote [("The ").data, ("sample ").data,
          ("consisted of 40 subjects.").data] ("sample consisted of").data).marked :=
  (C2_first_occurrence_overlap_scroll
    [("The ").data, ("sample ").data, ("consisted of 40 subjects.").data]
    ("sample consisted of").data 4 (by decide) (by decide)).2.2

/-- Claim C3 (confirmed): when the normalized quote has no occurrence in
the concatenation of the normalized fragment texts, the locator returns
the empty result — no fragment marked, no scroll target.  The model is a
total function, so no exception can be raised. -/
theorem C3_no_occurrence_empty :
    ∀ (frags : List (List Char)) (quote : List Char),
      firstIdx ((frags.map fragText).flatten) (normalizedQuote quote) = none →
      highlightQuote frags quote = emptyHighlight frags := by
  intro frags quote h
  unfold highlightQuote
  by_cases hnq : normalizedQuote quote = []
  · rw [if_pos (by simpa using hnq)]
  · rw [if_neg (by simpa using hnq)]
    simp only [h]

/-- Witness for C3 at the spec's example: the quote
"not present anywhere" is absent from the page and yields the empty
result. -/
theorem C3_witness :
    highlightQuote [("The ").data, ("sample ").data, ("consisted of 40 subjects.").data]
        ("not present anywhere").data =
      emptyHighlight [("The ").data, ("sample ").data,
        ("consisted of 40 subjects.").data] :=
  C3_no_occurrence_empty
    [("The ").data, ("sample ").data, ("consisted of 40 subjects.").data]
    ("not present anywhere").data (by decide)

/-- Claim C10 (confirmed): a quote that is empty or all whitespace
normalizes to the empty string, and the locator then clears every
highlight and returns the empty result without treating the empty string
as a match, even though the empty string is a prefix of every
concatenation at offset 0. -/
theorem C10_blank_quote_clears :
    ∀ (frags : List (List Char)) (quote : List Char),
      (∀ c ∈ quote, jsWs c = true) →
      highlightQuote frags quote = emptyHighlight frags := by
  intro frags quote h
  have hq := normalizedQuote_allWs h
  unfold highlightQuote
  rw [if_pos (by simpa using hq)]

/-- Witness for C10: three spaces as the quote produce the empty result
on a non-empty page. -/
theorem C10_witness :
    highlightQuote [("alpha").data] ("   ").data = emptyHighlight [("alpha").data] :=
  C10_blank_quote_clears [("alpha").data] ("   ").data (by decide)

/-! ### Layout Reconstructor claims -/

/-- Claim C4 (corrected), counterexample: the de-hyphenation test of the
code trims the accumulated text first (pageText.trim().endsWith("-")), so
an accumulated text ending in hyphen-space is still de-hyphenated, while
the claim's untrimmed test would insert a plain space instead. -/
theorem C4_counterexample :
    parsePdfPage [⟨("inter- ").data, 0, 100, 10, 30⟩, ⟨("national").data, 0, 90, 10, 40⟩] ≠
      parsePdfPageClaim
        [⟨("inter- ").data, 0, 100, 10, 30⟩, ⟨("national").data, 0, 90, 10, 40⟩] := by
  with_unfolding_all decide

/-- Claim C4 (corrected), amended description of the walk: with the -1
sentinel meaning no previous run, the classification of dy = |y - lastY|
against the current run's height behaves as follows.  Same line
(dy ≤ height*0.6): one space is inserted iff lastX is not the sentinel
-1, x - lastX > height*0.2, the run's text does not start with a space
character and the accumulated text does not end with a space character
(other whitespace does not suppress the space).  Line break
(height*0.6 < dy ≤ height*1.6): when the accumulated text, after
trimming surrounding whitespace, ends with "-", the text is trimmed and
that hyphen removed and the runs join with no separator; otherwise one
space is inserted.  Paragraph break (dy > height*1.6): the same trimmed
de-hyphenation, otherwise the separator is two newlines.  In particular
"inter-" then "national" across a line break yield "international". -/
theorem C4_amended :
    (∀ st r, st.lastY = -1 →
      walkStep st r = ⟨st.pageText ++ r.str, r.y, r.x + r.width⟩) ∧
    (∀ st r, st.lastY ≠ -1 → ¬ |r.y - st.lastY| > r.height * (6/10) →
      walkStep st r = ⟨st.pageText ++
        (if st.lastX ≠ -1 ∧ r.x > st.lastX + r.height * (2/10) ∧
            r.str.head? ≠ some ' ' ∧ st.pageText.getLast? ≠ some ' '
          then [' '] else []) ++ r.str, r.y, r.x + r.width⟩) ∧
    (∀ st r, st.lastY ≠ -1 → |r.y - st.lastY| > r.height * (6/10) →
      ¬ |r.y - st.lastY| > r.height * (16/10) →
      walkStep st r = ⟨(if (trimJs st.pageText).getLast? = some '-'
          then (trimJs st.pageText).dropLast
          else st.pageText ++ [' ']) ++ r.str, r.y, r.x + r.width⟩) ∧
    (∀ st r, st.lastY ≠ -1 → |r.y - st.lastY| > r.height * (16/10) →
      walkStep st r = ⟨(if (trimJs st.pageText).getLast? = some '-'
          then (trimJs st.pageText).dropLast
          else st.pageText ++ ('\n' :: '\n' :: [])) ++ r.str, r.y, r.x + r.width⟩) ∧
    parsePdfPage [⟨("inter-").data, 0, 100, 10, 30⟩, ⟨("national").data, 0, 90, 10, 40⟩] =
      ("international").data := by
  refine ⟨?_, ?_, ?_, ?_, by with_unfolding_all decide⟩
  · intro st r h
    unfold walkStep
    rw [if_neg (by simpa using h)]
  · intro st r h1 h2
    unfold walkStep
    rw [if_pos h1, if_neg h2]
    by_cases hA : st.lastX ≠ -1 ∧ r.x > st.lastX + r.height * (2/10)
    · by_cases hB : r.str.head? ≠ some ' ' ∧ st.pageText.getLast? ≠ some ' '
      · rw [if_pos hA, if_pos hB, if_pos ⟨hA.1, hA.2, hB.1, hB.2⟩]
      · rw [if_pos hA, if_neg hB, if_neg (by tauto)]
        simp
    · rw [if_neg hA, if_neg (by tauto)]
      simp
  · intro st r h1 h2 h3
    unfold walkStep
    rw [if_pos h1, if_pos h2, if_neg h3]
  · intro st r h1 h2
    unfold walkStep
    have h2' : |r.y - st.lastY| > r.height * (6/10) := by
      rcases le_or_lt 0 r.height with hh | hh
      · nlinarith
      · have habs : (0:ℚ) ≤ |r.y - st.lastY| := abs_nonneg _
        nlinarith
    rw [if_pos h1, if_pos h2', if_pos h2]

/-- Witness for C4_amended: the trimmed de-hyphenation equation applied
at an accumulated text ending in hyphen-space, across a line break. -/
theorem C4_witness :
    walkStep ⟨("inter- ").data, 100, 30⟩ ⟨("national").data, 0, 90, 10, 40⟩ =
      ⟨("international").data, 90, 40⟩ := by
  rw [C4_amended.2.2.1 ⟨("inter- ").data, 100, 30⟩ ⟨("national").data, 0, 90, 10, 40⟩
    (by with_unfolding_all decide) (by with_unfolding_all decide)
    (by with_unfolding_all decide)]
  with_unfolding_all decide

theorem runCompare_self (a : GlyphRun) : runCompare a a = 0 := by
  unfold runCompare
  by_cases h : |a.y - a.y| > a.height * (1/2)
  · rw [if_pos h]; ring
  · rw [if_neg h]; ring

theorem sortInsert_perm (r : GlyphRun) :
    ∀ (l : List GlyphRun), (sortInsert r l).Perm (r :: l) := by
  intro l
  induction l with
  | nil => simp [sortInsert]
  | cons b bs ih =>
    unfold sortInsert
    by_cases h : runCompare r b < 0
    · rw [if_pos h]
    · rw [if_neg h]
      exact (ih.cons b).trans (List.Perm.swap r b bs)

theorem mem_sortInsert {z r : GlyphRun} {l : List GlyphRun} :
    z ∈ sortInsert r l ↔ z = r ∨ z ∈ l := by
  rw [(sortInsert_perm r l).mem_iff]
  simp

theorem sortRuns_perm : ∀ (l : List GlyphRun), (sortRuns l).Perm l := by
  have gen : ∀ (l acc : List GlyphRun),
      (l.foldl (fun a r => sortInsert r a) acc).Perm (acc ++ l) := by
    intro l
    induction l with
    | nil => intro acc; simp
    | cons x xs ih =>
      intro acc
      simp only [List.foldl_cons]
      exact (ih (sortInsert x acc)).trans
        (((sortInsert_perm x acc).append_right xs).trans
          (by simpa using (@List.perm_middle _ x acc xs).symm))
  intro l
  simpa [sortRuns] using gen l []

theorem sro_get_lt {l : List GlyphRun} (h : StrictReadingOrder l) :
    ∀ (i j : Fin l.length), (i : ℕ) < j →
      runCompare (l.get i) (l.get j) < 0 ∧ 0 < runCompare (l.get j) (l.get i) := by
  intro i j hij
  exact List.pairwise_iff_get.mp h i j hij

theorem sro_index_lt {l : List GlyphRun} (h : StrictReadingOrder l) :
    ∀ (i j : Fin l.length), runCompare (l.get i) (l.get j) < 0 → (i : ℕ) < j := by
  intro i j hlt
  rcases Nat.lt_trichotomy (i : ℕ) (j : ℕ) with hij | hij | hij
  · exact hij
  · exfalso
    have : i = j := Fin.ext hij
    rw [this, runCompare_self] at hlt
    exact absurd hlt (by norm_num)
  · exfalso
    have := (sro_get_lt h j i hij).2
    linarith

theorem sro_trans {l : List GlyphRun} (h : StrictReadingOrder l) :
    ∀ a ∈ l, ∀ b ∈ l, ∀ c ∈ l,
      runCompare a b < 0 → runCompare b c < 0 → runCompare a c < 0 := by
  intro a ha b hb c hc hab hbc
  rcases List.mem_iff_get.mp ha with ⟨i, rfl⟩
  rcases List.mem_iff_get.mp hb with ⟨j, rfl⟩
  rcases List.mem_iff_get.mp hc with ⟨k, rfl⟩
  have hij := sro_index_lt h i j hab
  have hjk := sro_index_lt h j k hbc
  exact (sro_get_lt h i k (by omega)).1

theorem sro_asymm {l : List GlyphRun} (h : StrictReadingOrder l) :
    ∀ a ∈ l, ∀ b ∈ l, runCompare a b < 0 → ¬ runCompare b a < 0 := by
  intro a ha b hb hab hba
  rcases List.mem_iff_get.mp ha with ⟨i, rfl⟩
  rcases List.mem_iff_get.mp hb with ⟨j, rfl⟩
  have hij := sro_index_lt h i j hab
  have hji := sro_index_lt h j i hba
  omega

theorem sro_total {l : List GlyphRun} (h : StrictReadingOrder l) :
    ∀ a ∈ l, ∀ b ∈ l, a ≠ b → runCompare a b < 0 ∨ runCompare b a < 0 := by
  intro a ha b hb hne
  rcases List.mem_iff_get.mp ha with ⟨i, hi⟩
  rcases List.mem_iff_get.mp hb with ⟨j, hj⟩
  have hij : i ≠ j := by
    intro hcon
    rw [hcon, hj] at hi
    exact hne hi.symm
  rcases Nat.lt_or_ge (i : ℕ) (j : ℕ) with hlt | hge
  · left
    rw [← hi, ← hj]
    exact (sro_get_lt h i j hlt).1
  · right
    have hlt : (j : ℕ) < i := by
      rcases Nat.lt_or_ge (j : ℕ) (i : ℕ) with hx | hx
      · exact hx
      · exact absurd (Fin.ext (by omega)) hij
    rw [← hi, ← hj]
    exact (sro_get_lt h j i hlt).1

theorem sro_nodup {l : List GlyphRun} (h : StrictReadingOrder l) : l.Nodup := by
  unfold StrictReadingOrder at h
  refine h.imp ?_
  intro a b hab hcon
  rw [hcon, runCompare_self] at hab
  have := hab.1
  norm_num at this

theorem sortInsert_pairwise {l : List GlyphRun} (hsro : StrictReadingOrder l) :
    ∀ (ys : List GlyphRun) (r : GlyphRun), r ∈ l → (∀ y ∈ ys, y ∈ l) → r ∉ ys →
      ys.Pairwise (fun a b => runCompare a b < 0) →
      (sortInsert r ys).Pairwise (fun a b => runCompare a b < 0) := by
  intro ys
  induction ys with
  | nil => intro r _ _ _ _; simp [sortInsert]
  | cons y ys ih =>
    intro r hrl hmem hnotin hp
    have hyl : y ∈ l := hmem y (List.mem_cons_self y ys)
    have hysl : ∀ z ∈ ys, z ∈ l := fun z hz => hmem z (List.mem_cons_of_mem y hz)
    have hpy := (List.pairwise_cons.mp hp).1
    have hpys := (List.pairwise_cons.mp hp).2
    unfold sortInsert
    by_cases hlt : runCompare r y < 0
    · rw [if_pos hlt]
      refine List.pairwise_cons.mpr ⟨?_, hp⟩
      intro z hz
      rcases List.mem_cons.mp hz with rfl | hz'
      · exact hlt
      · exact sro_trans hsro r hrl y hyl z (hysl z hz') hlt (hpy z hz')
    · rw [if_neg hlt]
      have hry : y ≠ r := fun hcon =>
        hnotin (by rw [← hcon]; exact List.mem_cons_self y ys)
      have hyr : runCompare y r < 0 := by
        rcases sro_total hsro y hyl r hrl hry with hx | hx
        · exact hx
        · exact absurd hx hlt
      refine List.pairwise_cons.mpr ⟨?_, ?_⟩
      · intro z hz
        rcases mem_sortInsert.mp hz with rfl | hz'
        · exact hyr
        · exact hpy z hz'
      · exact ih r hrl hysl (fun hcon => hnotin (List.mem_cons_of_mem y hcon)) hpys

theorem sortRuns_pairwise {l : List GlyphRun} (hsro : StrictReadingOrder l) :
    ∀ (m : List GlyphRun), (∀ x ∈ m, x ∈ l) → m.Nodup →
      (sortRuns m).Pairwise (fun a b => runCompare a b < 0) := by
  have gen : ∀ (rest acc : List GlyphRun),
      acc.Pairwise (fun a b => runCompare a b < 0) →
      (∀ x ∈ acc, x ∈ l) → (∀ x ∈ rest, x ∈ l) → (acc ++ rest).Nodup →
      (rest.foldl (fun a r => sortInsert r a) acc).Pairwise
        (fun a b => runCompare a b < 0) := by
    intro rest
    induction rest with
    | nil => intro acc hacc _ _ _; simpa using hacc
    | cons x xs ih =>
      intro acc hacc haccl hrestl hnd
      simp only [List.foldl_cons]
      have hnd' : (x :: (acc ++ xs)).Nodup :=
        (@List.perm_middle _ x acc xs).nodup hnd
      have hxnot : x ∉ acc ++ xs := (List.nodup_cons.mp hnd').1
      have hxacc : x ∉ acc := fun hcon => hxnot (List.mem_append_left xs hcon)
      have hinsp : (sortInsert x acc).Pairwise (fun a b => runCompare a b < 0) :=
        sortInsert_pairwise hsro acc x (hrestl x (List.mem_cons_self x xs)) haccl hxacc hacc
      refine ih (sortInsert x acc) hinsp ?_ ?_ ?_
      · intro z hz
        rcases mem_sortInsert.mp hz with rfl | hz'
        · exact hrestl z (List.mem_cons_self z xs)
        · exact haccl z hz'
      · intro z hz
        exact hrestl z (List.mem_cons_of_mem x hz)
      · have hperm : (sortInsert x acc ++ xs).Perm (acc ++ x :: xs) :=
          ((sortInsert_perm x acc).append_right xs).trans
            (by simpa using (@List.perm_middle _ x acc xs).symm)
        exact hperm.symm.nodup hnd
  intro m hm hnd
  exact gen m [] (by simp) (by simp) hm (by simpa using hnd)

theorem pairwise_perm_eq {l : List GlyphRun} (hsro : StrictReadingOrder l) :
    ∀ (l1 l2 : List GlyphRun), (∀ x ∈ l1, x ∈ l) →
      l1.Pairwise (fun a b => runCompare a b < 0) →
      l2.Pairwise (fun a b => runCompare a b < 0) →
      l1.Perm l2 → l1 = l2 := by
  intro l1
  induction l1 with
  | nil =>
    intro l2 _ _ _ hperm
    exact (hperm.nil_eq).symm |>.symm
  | cons a t1 ih =>
    intro l2 hmem hp1 hp2 hperm
    have hl2mem : ∀ x ∈ l2, x ∈ l := fun x hx => hmem x (hperm.symm.subset hx)
    cases l2 with
    | nil => exact absurd hperm.symm.nil_eq (by simp)
    | cons b t2 =>
      by_cases hab : a = b
      · subst hab
        have htail := hperm.cons_inv
        have := ih t2 (fun x hx => hmem x (List.mem_cons_of_mem a hx))
          (List.pairwise_cons.mp hp1).2 (List.pairwise_cons.mp hp2).2 htail
        rw [this]
      · exfalso
        have hain : a ∈ b :: t2 := hperm.subset (List.mem_cons_self a t1)
        have hat2 : a ∈ t2 := by
          rcases List.mem_cons.mp hain with rfl | hx
          · exact absurd rfl hab
          · exact hx
        have hbin : b ∈ a :: t1 := hperm.symm.subset (List.mem_cons_self b t2)
        have hbt1 : b ∈ t1 := by
          rcases List.mem_cons.mp hbin with hx | hx
          · exact absurd hx.symm hab
          · exact hx
        have h1 : runCompare a b < 0 := (List.pairwise_cons.mp hp1).1 b hbt1
        have h2 : runCompare b a < 0 := (List.pairwise_cons.mp hp2).1 a hat2
        exact sro_asymm hsro a (hmem a (List.mem_cons_self a t1)) b
          (hmem b (List.mem_cons_of_mem a hbt1)) h1 h2

theorem sortRuns_eq_of_sro {l m : List GlyphRun} (hsro : StrictReadingOrder l)
    (hperm : m.Perm l) : sortRuns m = l := by
  have hlp : l.Pairwise (fun a b => runCompare a b < 0) := hsro.imp (·.1)
  have hmnd : m.Nodup := hperm.symm.nodup (sro_nodup hsro)
  have hmem : ∀ x ∈ m, x ∈ l := fun x hx => hperm.subset hx
  have hsp := sortRuns_pairwise hsro m hmem hmnd
  have hsmem : ∀ x ∈ sortRuns m, x ∈ l :=
    fun x hx => hmem x ((sortRuns_perm m).subset hx)
  exact pairwise_perm_eq hsro (sortRuns m) l hsmem hsp hlp
    ((sortRuns_perm m).trans hperm)

theorem mem_of_getLast? : ∀ {l : List Char} {a : Char}, l.getLast? = some a → a ∈ l := by
  intro l
  induction l with
  | nil => intro a h; simp [List.getLast?] at h
  | cons c cs ih =>
    intro a h
    cases cs with
    | nil =>
      simp [List.getLast?] at h
      simp [h]
    | cons d ds =>
      rw [List.getLast?_cons_cons] at h
      exact List.mem_cons_of_mem c (ih h)

theorem mem_trimJs {c : Char} {s : List Char} (h : c ∈ trimJs s) : c ∈ s := by
  unfold trimJs at h
  rw [List.mem_reverse] at h
  have h1 := (List.dropWhile_sublist (l := (s.dropWhile jsWs).reverse) (p := jsWs)).subset h
  rw [List.mem_reverse] at h1
  exact (List.dropWhile_sublist (l := s) (p := jsWs)).subset h1

theorem trim_no_hyphen {s : List Char} (h : '-' ∉ s) :
    ¬ (trimJs s).getLast? = some '-' :=
  fun hcon => h (mem_trimJs (mem_of_getLast? hcon))

theorem not_mem_append3 {c : Char} {A j B : List Char} (hA : c ∉ A) (hj : c ∉ j)
    (hB : c ∉ B) : c ∉ A ++ j ++ B := by
  simp only [List.mem_append]
  tauto

theorem walkStep_join {st : WalkState} {r : GlyphRun} (h1 : '-' ∉ st.pageText)
    (h2 : '-' ∉ r.str) :
    ∃ j, IsJoiner j ∧ (walkStep st r).pageText = st.pageText ++ j ++ r.str ∧
      '-' ∉ (walkStep st r).pageText := by
  have hhyph := trim_no_hyphen h1
  by_cases hY : st.lastY ≠ -1
  · by_cases hdy1 : |r.y - st.lastY| > r.height * (6/10)
    · by_cases hdy2 : |r.y - st.lastY| > r.height * (16/10)
      · have hpt : (walkStep st r).pageText =
            st.pageText ++ ('\n' :: '\n' :: []) ++ r.str := by
          simp only [walkStep, if_pos hY, if_pos hdy1, if_pos hdy2, if_neg hhyph]
        exact ⟨'\n' :: '\n' :: [], Or.inr (Or.inr rfl), hpt,
          hpt ▸ not_mem_append3 h1 (by decide) h2⟩
      · have hpt : (walkStep st r).pageText = st.pageText ++ [' '] ++ r.str := by
          simp only [walkStep, if_pos hY, if_pos hdy1, if_neg hdy2, if_neg hhyph]
        exact ⟨[' '], Or.inr (Or.inl rfl), hpt,
          hpt ▸ not_mem_append3 h1 (by decide) h2⟩
    · by_cases hX : st.lastX ≠ -1 ∧ r.x > st.lastX + r.height * (2/10)
      · by_cases hsp : r.str.head? ≠ some ' ' ∧ st.pageText.getLast? ≠ some ' '
        · have hpt : (walkStep st r).pageText = st.pageText ++ [' '] ++ r.str := by
            simp only [walkStep, if_pos hY, if_neg hdy1, if_pos hX, if_pos hsp]
          exact ⟨[' '], Or.inr (Or.inl rfl), hpt,
            hpt ▸ not_mem_append3 h1 (by decide) h2⟩
        · have hpt : (walkStep st r).pageText = st.pageText ++ [] ++ r.str := by
            simp only [walkStep, if_pos hY, if_neg hdy1, if_pos hX, if_neg hsp]
            simp
          exact ⟨[], Or.inl rfl, hpt, hpt ▸ not_mem_append3 h1 (by decide) h2⟩
      · have hpt : (walkStep st r).pageText = st.pageText ++ [] ++ r.str := by
          simp only [walkStep, if_pos hY, if_neg hdy1, if_neg hX]
          simp
        exact ⟨[], Or.inl rfl, hpt, hpt ▸ not_mem_append3 h1 (by decide) h2⟩
  · have hpt : (walkStep st r).pageText = st.pageText ++ [] ++ r.str := by
      simp only [walkStep, if_neg hY]
      simp
    exact ⟨[], Or.inl rfl, hpt, hpt ▸ not_mem_append3 h1 (by decide) h2⟩

theorem walk_append : ∀ (rs : List GlyphRun) (st : WalkState),
    (∀ x ∈ rs, '-' ∉ x.str) → '-' ∉ st.pageText →
    ∃ tail, (rs.foldl walkStep st).pageText = st.pageText ++ tail ∧
      JoinSepTail (rs.map GlyphRun.str) tail := by
  intro rs
  induction rs with
  | nil =>
    intro st _ _
    exact ⟨[], by simp, by simp [JoinSepTail]⟩
  | cons r rs ih =>
    intro st hmem hst
    rcases walkStep_join hst (hmem r (List.mem_cons_self r rs)) with ⟨j, hj, hpt, hnm⟩
    rcases ih (walkStep st r) (fun x hx => hmem x (List.mem_cons_of_mem r hx)) hnm with
      ⟨tail, htail, hjoin⟩
    refine ⟨j ++ r.str ++ tail, ?_, ?_⟩
    · simp only [List.foldl_cons]
      rw [htail, hpt]
      simp [List.append_assoc]
    · exact ⟨j, tail, hj, by simp [List.append_assoc], hjoin⟩

theorem walkStep_init (r : GlyphRun) :
    walkStep pageInit r = ⟨r.str, r.y, r.x + r.width⟩ := by
  simp [walkStep, pageInit]

theorem parse_joinsep {runs : List GlyphRun} (h : HyphenFree runs) :
    JoinSep ((sortRuns runs).map GlyphRun.str) (parsePdfPage runs) := by
  have hsort : ∀ x ∈ sortRuns runs, '-' ∉ x.str :=
    fun x hx => h x ((sortRuns_perm runs).subset hx)
  unfold parsePdfPage
  cases hs : sortRuns runs with
  | nil => simp [JoinSep, pageInit]
  | cons r rs =>
    rw [hs] at hsort
    simp only [List.foldl_cons, List.map_cons]
    rw [walkStep_init]
    rcases walk_append rs ⟨r.str, r.y, r.x + r.width⟩
      (fun x hx => hsort x (List.mem_cons_of_mem r hx))
      (hsort r (List.mem_cons_self r rs)) with ⟨tail, htail, hjoin⟩
    exact ⟨tail, htail, hjoin⟩

theorem joinSepTail_inOrder :
    ∀ (ts : List (List Char)) (s : List Char), JoinSepTail ts s → InOrder ts s := by
  intro ts
  induction ts with
  | nil => intro s _; trivial
  | cons t ts ih =>
    rintro s ⟨j, b, _, rfl, hj⟩
    exact ⟨j, b, rfl, ih b hj⟩

theorem joinSep_inOrder {ts : List (List Char)} {s : List Char} (h : JoinSep ts s) :
    InOrder ts s := by
  cases ts with
  | nil => trivial
  | cons t ts =>
    rcases h with ⟨b, rfl, htail⟩
    exact ⟨[], b, rfl, joinSepTail_inOrder ts b htail⟩

theorem inOrder_length :
    ∀ (ts : List (List Char)) (s : List Char), InOrder ts s →
      (ts.map List.length).sum ≤ s.length := by
  intro ts
  induction ts with
  | nil => intro s _; simp
  | cons t ts ih =>
    rintro s ⟨a, b, rfl, hio⟩
    have := ih b hio
    simp only [List.map_cons, List.sum_cons, List.length_append]
    omega

/-- Claim C5 (corrected), counterexample: de-hyphenation deletes the
trailing hyphen, so the output of the walk is not a concatenation of
every run's text: "inter-" and "national" across a line break yield
"international" (13 characters), which is too short to contain both run
texts (14 characters) as disjoint segments in any order. -/
theorem C5_counterexample :
    parsePdfPage [⟨("inter-").data, 0, 100, 10, 30⟩, ⟨("national").data, 0, 90, 10, 40⟩] =
      ("international").data ∧
    ¬ ∃ ts, ts.Perm [("inter-").data, ("national").data] ∧
        InOrder ts (parsePdfPage
          [⟨("inter-").data, 0, 100, 10, 30⟩, ⟨("national").data, 0, 90, 10, 40⟩]) := by
  have h13 : parsePdfPage
      [⟨("inter-").data, 0, 100, 10, 30⟩, ⟨("national").data, 0, 90, 10, 40⟩] =
      ("international").data := by
    with_unfolding_all decide
  refine ⟨h13, ?_⟩
  rintro ⟨ts, hperm, hio⟩
  have hlen := inOrder_length ts _ hio
  rw [h13] at hlen
  have hsum : (ts.map List.length).sum =
      (([("inter-").data, ("national").data]).map List.length).sum :=
    (hperm.map List.length).sum_eq
  simp at hsum
  simp at hlen
  omega

/-- Claim C5 (corrected), amended: when no run's text contains a hyphen,
de-hyphenation never fires, and then (i) the page text is exactly the
sorted runs' texts in order with a single joiner (nothing, one space, or
two newlines) between consecutive texts — no run is dropped; and (ii) for
any permutation of a run list that is pairwise strictly ordered by the
reading-order comparator, the reconstructed text contains each run's text
in that same order.  (With hyphens present, a run whose text ends in a
hyphen loses it at a break, and a run consisting of a hyphen alone can
disappear entirely.) -/
theorem C5_amended :
    (∀ runs, HyphenFree runs →
      JoinSep ((sortRuns runs).map GlyphRun.str) (parsePdfPage runs)) ∧
    (∀ l m, StrictReadingOrder l → HyphenFree l → m.Perm l →
      InOrder (l.map GlyphRun.str) (parsePdfPage m)) := by
  constructor
  · intro runs h
    exact parse_joinsep h
  · intro l m hsro hhf hperm
    have heq := sortRuns_eq_of_sro hsro hperm
    have hhfm : HyphenFree m := fun x hx => hhf x (hperm.subset hx)
    have hj := parse_joinsep hhfm
    rw [heq] at hj
    exact joinSep_inOrder hj

/-- Witness for C5_amended: the two-run same-line page "Hello" / "World"
in strict reading order, walked after swapping the two runs; the output
contains the texts in reading order. -/
theorem C5_witness :
    InOrder ([⟨("Hello").data, 0, 100, 10, 40⟩,
              ⟨("World").data, 46, 100, 10, 40⟩].map GlyphRun.str)
      (parsePdfPage [⟨("World").data, 46, 100, 10, 40⟩,
                     ⟨("Hello").data, 0, 100, 10, 40⟩]) :=
  C5_amended.2
    [⟨("Hello").data, 0, 100, 10, 40⟩, ⟨("World").data, 46, 100, 10, 40⟩]
    [⟨("World").data, 46, 100, 10, 40⟩, ⟨("Hello").data, 0, 100, 10, 40⟩]
    (by unfold StrictReadingOrder; with_unfolding_all decide)
    (by unfold HyphenFree; with_unfolding_all decide)
    (by with_unfolding_all decide)

/-- Claim C6 (corrected), counterexample: the document text is not the
page texts joined by a separator between consecutive pages only — the
code appends "\n\n" after every page, including the last, so a
one-page document already carries a trailing separator. -/
theorem C6_counterexample :
    parsePdfText [[⟨("a").data, 0, 0, 10, 5⟩]] ≠
      List.intercalate ('\n' :: '\n' :: [])
        ([[⟨("a").data, 0, 0, 10, 5⟩]].map parsePdfPage) := by
  with_unfolding_all decide

/-- Claim C6 (corrected), amended: the page walk is a total deterministic
function; the empty run list yields the empty page text; and the
document text is the concatenation of (page text followed by "\n\n")
over all pages — i.e. the pages joined by "\n\n" with one trailing
separator after the last page as well. -/
theorem C6_amended :
    parsePdfPage [] = [] ∧
    ∀ pages, parsePdfText pages =
      (pages.map fun p => parsePdfPage p ++ ('\n' :: '\n' :: [])).flatten := by
  constructor
  · rfl
  · have gen : ∀ (pages : List (List GlyphRun)) (acc : List Char),
        pages.foldl (fun a p => a ++ parsePdfPage p ++ ('\n' :: '\n' :: [])) acc =
          acc ++ (pages.map fun p => parsePdfPage p ++ ('\n' :: '\n' :: [])).flatten := by
      intro pages
      induction pages with
      | nil => intro acc; simp
      | cons p ps ih =>
        intro acc
        simp only [List.foldl_cons, List.map_cons, List.flatten_cons, ih]
        simp [List.append_assoc]
    intro pages
    simpa [parsePdfText] using gen pages []

/-! ### Citation Token Parser claims -/

theorem dropWhile_head_not (p : Char → Bool) :
    ∀ (l : List Char) {c : Char} {cs : List Char}, l.dropWhile p = c :: cs →
      p c = false := by
  intro l
  induction l with
  | nil => intro c cs h; simp [List.dropWhile] at h
  | cons a as ih =>
    intro c cs h
    by_cases hp : p a = true
    · rw [List.dropWhile_cons_of_pos hp] at h
      exact ih h
    · rw [List.dropWhile_cons_of_neg hp] at h
      injection h with h1 h2
      rw [← h1]
      exact bool_eq_false hp

theorem allWs_takeWhile (l : List Char) : AllWs (l.takeWhile jsWs) :=
  fun _ hc => List.mem_takeWhile_imp hc

theorem allDigits_takeWhile (l : List Char) : AllDigits (l.takeWhile jsDigit) :=
  fun _ hc => List.mem_takeWhile_imp hc

theorem matchCit_sound {s : List Char} {m : CitMatch} (h : matchCit s = some m) :
    s = m.tok ++ m.rest ∧ CitForm m.tok m.d1 m.d2 m.q := by
  cases s with
  | nil => simp [matchCit] at h
  | cons c s0 =>
    simp only [matchCit] at h
    by_cases hc : c = '['
    case neg => rw [if_neg hc] at h; exact absurd h (by simp)
    case pos =>
    subst hc
    rw [if_pos rfl] at h
    set s1 := s0.dropWhile jsWs with hs1
    set w1 := s0.takeWhile jsWs with hw1
    set s2 := s1.dropWhile jsDigit with hs2
    set d1 := s1.takeWhile jsDigit with hd1def
    set w2 := s2.takeWhile jsWs with hw2
    by_cases hd1 : d1 = []
    · rw [if_pos hd1] at h; exact absurd h (by simp)
    rw [if_neg hd1] at h
    split at h
    next s4 heq3 =>
      set s5 := s4.dropWhile jsWs with hs5
      set w3 := s4.takeWhile jsWs with hw3
      set s6 := s5.dropWhile jsDigit with hs6
      set d2 := s5.takeWhile jsDigit with hd2def
      set w4 := s6.takeWhile jsWs with hw4
      by_cases hd2 : d2 = []
      · rw [if_pos hd2] at h; exact absurd h (by simp)
      rw [if_neg hd2] at h
      split at h
      next s8 heq7 =>
        -- the quote group: the munched input continues with the pipe
        set w5 := s8.takeWhile jsWs with hw5
        split at h
        next qo s10 heq9 =>
          by_cases hqo : jsQuote qo = true
          case neg => rw [if_neg hqo] at h; exact absurd h (by simp)
          case pos =>
          rw [if_pos hqo] at h
          set qc := s10.takeWhile (fun ch => ! jsQuote ch) with hqcdef
          by_cases hqc : qc = []
          · rw [if_pos hqc] at h; exact absurd h (by simp)
          rw [if_neg hqc] at h
          split at h
          next qcl s12 heq11 =>
            set w6 := s12.takeWhile jsWs with hw6
            split at h
            next s14 heq13 =>
              injection h with h
              subst h
              have hqcl : jsQuote qcl = true := by
                have := dropWhile_head_not (fun ch => ! jsQuote ch) s10 heq11
                simpa using this
              constructor
              · show ('[' :: s0 : List Char) = _
                simp only [List.cons_append, List.append_assoc, List.singleton_append,
                  List.nil_append, List.cons.injEq, true_and]
                rw [← heq13, hw6, List.takeWhile_append_dropWhile,
                  ← heq11, hqcdef, List.takeWhile_append_dropWhile,
                  ← heq9, hw5, List.takeWhile_append_dropWhile,
                  ← heq7, hw4, List.takeWhile_append_dropWhile,
                  hs6, hd2def, List.takeWhile_append_dropWhile,
                  hs5, hw3, List.takeWhile_append_dropWhile,
                  ← heq3, hw2, List.takeWhile_append_dropWhile,
                  hs2, hd1def, List.takeWhile_append_dropWhile,
                  hs1, hw1, List.takeWhile_append_dropWhile]
              · refine ⟨w1, w2, w3, w4, w6, '|' :: w5 ++ qo :: qc ++ [qcl],
                  ?_, ?_, ?_, ?_, ?_, hd1, ?_, hd2, ?_, ?_, ?_⟩
                · rw [hw1]; exact allWs_takeWhile s0
                · rw [hw2]; exact allWs_takeWhile s2
                · rw [hw3]; exact allWs_takeWhile s4
                · rw [hw4]; exact allWs_takeWhile s6
                · rw [hw6]; exact allWs_takeWhile s12
                · rw [hd1def]; exact allDigits_takeWhile s1
                · rw [hd2def]; exact allDigits_takeWhile s5
                · simp [List.append_assoc]
                · right
                  refine ⟨w5, qo, qc, qcl, ?_, hqo, hqcl, hqc, ?_, rfl, rfl⟩
                  · rw [hw5]; exact allWs_takeWhile s8
                  · intro ch hch
                    rw [hqcdef] at hch
                    have := List.mem_takeWhile_imp hch
                    simpa using this
            next => exact absurd h (by simp)
          next => exact absurd h (by simp)
        next => exact absurd h (by simp)
      next s9 heq7 =>
        -- the group-skipped alternative: the munched input continues with
        -- the close bracket
        injection h with h
        subst h
        constructor
        · show ('[' :: s0 : List Char) = _
          simp only [List.cons_append, List.append_assoc, List.singleton_append,
            List.nil_append, List.cons.injEq, true_and]
          rw [← heq7, hw4, List.takeWhile_append_dropWhile,
            hs6, hd2def, List.takeWhile_append_dropWhile,
            hs5, hw3, List.takeWhile_append_dropWhile,
            ← heq3, hw2, List.takeWhile_append_dropWhile,
            hs2, hd1def, List.takeWhile_append_dropWhile,
            hs1, hw1, List.takeWhile_append_dropWhile]
        · refine ⟨w1, w2, w3, w4, [], [], ?_, ?_, ?_, ?_, ?_, hd1, ?_, hd2, ?_, ?_, ?_⟩
          · rw [hw1]; exact allWs_takeWhile s0
          · rw [hw2]; exact allWs_takeWhile s2
          · rw [hw3]; exact allWs_takeWhile s4
          · rw [hw4]; exact allWs_takeWhile s6
          · intro x hx; simp at hx
          · rw [hd1def]; exact allDigits_takeWhile s1
          · rw [hd2def]; exact allDigits_takeWhile s5
          · simp
          · left; exact ⟨rfl, rfl⟩
      next => exact absurd h (by simp)
    next => exact absurd h (by simp)

theorem headNot_of_digits {d : List Char} (hne : d ≠ []) (hd : AllDigits d)
    (r : List Char) : HeadNot jsWs (d ++ r) := by
  cases d with
  | nil => exact absurd rfl hne
  | cons e es =>
    simp only [List.cons_append, HeadNot]
    exact jsWs_of_jsDigit (hd e (List.mem_cons_self e es))

theorem headNot_digit_wsHead {w : List Char} (hw : AllWs w) {c : Char}
    (hc : jsDigit c = false) (X : List Char) : HeadNot jsDigit (w ++ c :: X) := by
  cases w with
  | nil => exact hc
  | cons e es =>
    simp only [List.cons_append, HeadNot]
    exact jsDigit_of_jsWs (hw e (List.mem_cons_self e es))

theorem matchCit_complete_noq (w1 w2 w3 W d1 d2 rest : List Char)
    (hw1 : AllWs w1) (hw2 : AllWs w2) (hw3 : AllWs w3) (hW : AllWs W)
    (hd1ne : d1 ≠ []) (hd1d : AllDigits d1) (hd2ne : d2 ≠ []) (hd2d : AllDigits d2) :
    matchCit (('[' :: w1 ++ d1 ++ w2 ++ ':' :: w3 ++ d2 ++ W ++ [']']) ++ rest) =
      some ⟨'[' :: w1 ++ d1 ++ w2 ++ ':' :: w3 ++ d2 ++ W ++ [']'], d1, d2, none, rest⟩ := by
  have harg : (('[' :: w1 ++ d1 ++ w2 ++ ':' :: w3 ++ d2 ++ W ++ [']']) ++ rest
        : List Char) =
      '[' :: (w1 ++ (d1 ++ (w2 ++ (':' :: (w3 ++ (d2 ++ (W ++ (']' :: rest)))))))) := by
    simp [List.append_assoc]
  rw [harg]
  have e1 := munchPieces jsWs w1 (d1 ++ (w2 ++ (':' :: (w3 ++ (d2 ++ (W ++ (']' :: rest)))))))
    hw1 (headNot_of_digits hd1ne hd1d _)
  have e2 := munchPieces jsDigit d1 (w2 ++ (':' :: (w3 ++ (d2 ++ (W ++ (']' :: rest))))))
    hd1d (headNot_digit_wsHead hw2 (by decide) _)
  have e3 := munchPieces jsWs w2 (':' :: (w3 ++ (d2 ++ (W ++ (']' :: rest)))))
    hw2 (show jsWs ':' = false by decide)
  have e4 := munchPieces jsWs w3 (d2 ++ (W ++ (']' :: rest)))
    hw3 (headNot_of_digits hd2ne hd2d _)
  have e5 := munchPieces jsDigit d2 (W ++ (']' :: rest))
    hd2d (headNot_digit_wsHead hW (by decide) _)
  have e6 := munchPieces jsWs W (']' :: rest) hW (show jsWs ']' = false by decide)
  simp only [matchCit, e1.1, e1.2, e2.1, e2.2, e3.1, e3.2, e4.1, e4.2, e5.1, e5.2,
    e6.1, e6.2, if_pos rfl, hd1ne, hd2ne, if_neg]
  simp [List.append_assoc]

theorem matchCit_complete_q (w1 w2 w3 W wq wz d1 d2 qc rest : List Char)
    (qo qcl : Char)
    (hw1 : AllWs w1) (hw2 : AllWs w2) (hw3 : AllWs w3) (hW : AllWs W)
    (hwq : AllWs wq) (hwz : AllWs wz)
    (hd1ne : d1 ≠ []) (hd1d : AllDigits d1) (hd2ne : d2 ≠ []) (hd2d : AllDigits d2)
    (hqo : jsQuote qo = true) (hqcl : jsQuote qcl = true)
    (hqcne : qc ≠ []) (hqcq : ∀ ch ∈ qc, jsQuote ch = false) :
    matchCit (('[' :: w1 ++ d1 ++ w2 ++ ':' :: w3 ++ d2 ++ W ++
        '|' :: wq ++ qo :: qc ++ qcl :: wz ++ [']']) ++ rest) =
      some ⟨'[' :: w1 ++ d1 ++ w2 ++ ':' :: w3 ++ d2 ++ W ++
        '|' :: wq ++ qo :: qc ++ qcl :: wz ++ [']'], d1, d2, some qc, rest⟩ := by
  have harg : (('[' :: w1 ++ d1 ++ w2 ++ ':' :: w3 ++ d2 ++ W ++
        '|' :: wq ++ qo :: qc ++ qcl :: wz ++ [']']) ++ rest : List Char) =
      '[' :: (w1 ++ (d1 ++ (w2 ++ (':' :: (w3 ++ (d2 ++ (W ++
        ('|' :: (wq ++ (qo :: (qc ++ (qcl :: (wz ++ (']' :: rest)))))))))))))) := by
    simp [List.append_assoc]
  rw [harg]
  have e1 := munchPieces jsWs w1 (d1 ++ (w2 ++ (':' :: (w3 ++ (d2 ++ (W ++
      ('|' :: (wq ++ (qo :: (qc ++ (qcl :: (wz ++ (']' :: rest)))))))))))))
    hw1 (headNot_of_digits hd1ne hd1d _)
  have e2 := munchPieces jsDigit d1 (w2 ++ (':' :: (w3 ++ (d2 ++ (W ++
      ('|' :: (wq ++ (qo :: (qc ++ (qcl :: (wz ++ (']' :: rest))))))))))))
    hd1d (headNot_digit_wsHead hw2 (by decide) _)
  have e3 := munchPieces jsWs w2 (':' :: (w3 ++ (d2 ++ (W ++
      ('|' :: (wq ++ (qo :: (qc ++ (qcl :: (wz ++ (']' :: rest)))))))))))
    hw2 (show jsWs ':' = false by decide)
  have e4 := munchPieces jsWs w3 (d2 ++ (W ++
      ('|' :: (wq ++ (qo :: (qc ++ (qcl :: (wz ++ (']' :: rest)))))))))
    hw3 (headNot_of_digits hd2ne hd2d _)
  have e5 := munchPieces jsDigit d2 (W ++
      ('|' :: (wq ++ (qo :: (qc ++ (qcl :: (wz ++ (']' :: rest))))))))
    hd2d (headNot_digit_wsHead hW (by decide) _)
  have e6 := munchPieces jsWs W
      ('|' :: (wq ++ (qo :: (qc ++ (qcl :: (wz ++ (']' :: rest)))))))
    hW (show jsWs '|' = false by decide)
  have e7 := munchPieces jsWs wq (qo :: (qc ++ (qcl :: (wz ++ (']' :: rest)))))
    hwq (jsWs_of_jsQuote hqo)
  have e8 := munchPieces (fun ch => ! jsQuote ch) qc (qcl :: (wz ++ (']' :: rest)))
    (fun ch hch => by simp [hqcq ch hch]) (by simp [HeadNot, hqcl])
  have e9 := munchPieces jsWs wz (']' :: rest) hwz (show jsWs ']' = false by decide)
  simp only [matchCit, e1.1, e1.2, e2.1, e2.2, e3.1, e3.2, e4.1, e4.2, e5.1, e5.2,
    e6.1, e6.2, e7.1, e7.2, e8.1, e8.2, e9.1, e9.2, if_pos rfl, hd1ne, hd2ne, hqo,
    hqcne, if_neg]
  simp [List.append_assoc]

theorem allWs_append {a b : List Char} (ha : AllWs a) (hb : AllWs b) :
    AllWs (a ++ b) := by
  intro c hc
  rcases List.mem_append.mp hc with h | h
  · exact ha c h
  · exact hb c h

/-- Claim C7 (corrected), counterexample: the regex quote class lets the
closing delimiter differ from the opening one, so the marker
[1:2 | "q&#39;] (opening double quote, closing single quote) is recognized
as a citation by the code although the claim's grammar — a quoted string
"..." or &#39;...&#39; with matching delimiters — would leave it as literal
text. -/
theorem C7_counterexample :
    parsedSpans 1 (("[1:2 | \"q").data ++ Char.ofNat 39 :: (']' :: [])) ≠
      parsedSpansClaim 1 (("[1:2 | \"q").data ++ Char.ofNat 39 :: (']' :: [])) := by
  decide

/-- Claim C7 (corrected), amended: the matcher recognizes, at any
position, exactly the tokens of the citation shape whose optional quoted
part is delimited by a double or a single quote mark on each side
independently (the closing delimiter need not match the opening one);
every other text is emitted as ordinary Text spans, a truncated trailing
marker included.  The spec's concrete examples hold. -/
theorem C7_amended :
    (∀ (s : List Char) (m : CitMatch),
      matchCit s = some m ↔
        (s = m.tok ++ m.rest ∧ CitForm m.tok m.d1 m.d2 m.q)) ∧
    parsedSpans 1 ("Finding X [1:12].").data =
      [CitationSpan.text ("Finding X ").data,
        CitationSpan.citation 1 12 none true,
        CitationSpan.text (".").data] ∧
    parsedSpans 2 ("[2:14 | \"sample size\"]").data =
      [CitationSpan.citation 2 14 (some ("sample size").data) true] ∧
    parsedSpans 1 ("Finding X [1:12").data =
      [CitationSpan.text ("Finding X [1:12").data] := by
  refine ⟨?_, by decide, by decide, by decide⟩
  intro s m
  constructor
  · exact matchCit_sound
  · rintro ⟨rfl, hform⟩
    obtain ⟨tok, d1, d2, q, rest⟩ := m
    simp only at hform ⊢
    rcases hform with ⟨w1, w2, w3, w4, w5, opt, hw1, hw2, hw3, hw4, hw5,
      hd1ne, hd1d, hd2ne, hd2d, htok, hopt⟩
    rcases hopt with ⟨rfl, rfl⟩ | ⟨w6, qo, qc, qcl, hw6, hqo, hqcl, hqcne, hqcq, rfl, rfl⟩
    · have hshape : tok =
          '[' :: w1 ++ d1 ++ w2 ++ ':' :: w3 ++ d2 ++ (w4 ++ w5) ++ [']'] := by
        rw [htok]; simp [List.append_assoc]
      rw [hshape]
      exact matchCit_complete_noq w1 w2 w3 (w4 ++ w5) d1 d2 rest
        hw1 hw2 hw3 (allWs_append hw4 hw5) hd1ne hd1d hd2ne hd2d
    · have hshape : tok =
          '[' :: w1 ++ d1 ++ w2 ++ ':' :: w3 ++ d2 ++ w4 ++
            '|' :: w6 ++ qo :: qc ++ qcl :: w5 ++ [']'] := by
        rw [htok]; simp [List.append_assoc]
      rw [hshape]
      exact matchCit_complete_q w1 w2 w3 w4 w6 w5 d1 d2 qc rest qo qcl
        hw1 hw2 hw3 hw4 hw6 hw5 hd1ne hd1d hd2ne hd2d hqo hqcl hqcne hqcq

/-- Claim C8 (confirmed): every raw citation of the scan is emitted as a
citation span — never omitted — and its valid flag equals the spec's
range test 1 ≤ docIndex ≤ libraryCount; the parser is a total function,
so parsing never fails. -/
theorem C8_valid_range :
    ∀ (libraryCount : ℕ) (s : List Char),
      parsedSpans libraryCount s = (rawScan s).map fun rs =>
        match rs with
        | RawSpan.text t => CitationSpan.text t
        | RawSpan.cite a b qq =>
          CitationSpan.citation (digitsToNat a) (digitsToNat b) (citeQuote qq)
            (decide (1 ≤ digitsToNat a ∧ digitsToNat a ≤ libraryCount)) := by
  intro libraryCount s
  unfold parsedSpans
  have hfun : attachValid libraryCount = fun rs =>
      match rs with
      | RawSpan.text t => CitationSpan.text t
      | RawSpan.cite a b qq =>
        CitationSpan.citation (digitsToNat a) (digitsToNat b) (citeQuote qq)
          (decide (1 ≤ digitsToNat a ∧ digitsToNat a ≤ libraryCount)) := by
    funext rs
    cases rs with
    | text t => rfl
    | cite a b qq =>
      simp only [attachValid]
      congr 1
      unfold docLookupValid
      rw [decide_eq_decide]
      omega
  rw [hfun]

theorem replaceAllFuel_of_none {t : List Char} (r : List Char) :
    ∀ (fuel : ℕ) (s : List Char), s.length ≤ fuel → firstIdx s t = none →
      replaceAllFuel t r fuel s = s := by
  intro fuel
  induction fuel with
  | zero =>
    intro s hlen _
    cases s with
    | nil => rfl
    | cons c cs => simp at hlen
  | succ f ih =>
    intro s hlen h
    cases s with
    | nil => rfl
    | cons c cs =>
      rw [firstIdx_none_iff] at h
      have h0 : t.isPrefixOf (c :: cs) = false := by
        have := h 0
        rwa [List.drop_zero] at this
      have hcs : firstIdx cs t = none := by
        rw [firstIdx_none_iff]
        intro k
        have := h (k + 1)
        rwa [List.drop_succ_cons] at this
      rw [replaceAllFuel, if_neg (by simp [h0])]
      rw [ih cs (by simpa using Nat.le_of_succ_le_succ (by simpa using hlen)) hcs]

theorem replaceAll_of_none {t s : List Char} (r : List Char)
    (h : firstIdx s t = none) : replaceAll t r s = s :=
  replaceAllFuel_of_none r s.length s (Nat.le_refl _) h

theorem replaceAllFuel_single (t r : List Char) (ht : t ≠ []) :
    ∀ (a : List Char) (fuel : ℕ) (b : List Char),
      (a ++ t ++ b).length ≤ fuel →
      firstIdx (a ++ t ++ b) t = some a.length →
      firstIdx b t = none → replaceAllFuel t r fuel (a ++ t ++ b) = a ++ r ++ b := by
  intro a
  induction a with
  | nil =>
    intro fuel b hlen _ hnone
    cases t with
    | nil => exact absurd rfl ht
    | cons x xs =>
      cases fuel with
      | zero => simp at hlen
      | succ f =>
        have hpre : (x :: xs).isPrefixOf ((x :: xs) ++ b) = true :=
          (isPrefixOf_iff _ _).mpr ⟨b, rfl⟩
        simp only [List.nil_append, List.cons_append]
        rw [replaceAllFuel, if_pos ⟨ht, hpre⟩]
        have hdrop : List.drop (x :: xs).length (x :: (xs ++ b)) = b := by
          rw [List.length_cons, List.drop_succ_cons]
          exact List.drop_left xs b
        rw [hdrop, replaceAllFuel_of_none r f b (by simp at hlen; omega) hnone]
  | cons c a' ih =>
    intro fuel b hfuel hfirst hnone
    have hf := (firstIdx_some_iff _ _ _).mp hfirst
    have h0 : t.isPrefixOf (c :: (a' ++ t ++ b)) = false := by
      have := hf.2 0 (by simp)
      rwa [List.drop_zero] at this
    cases fuel with
    | zero => simp at hfuel
    | succ f =>
      rw [show ((c :: a') ++ t ++ b : List Char) = c :: (a' ++ t ++ b) from rfl]
      rw [replaceAllFuel, if_neg (fun hcon => by
        rw [h0] at hcon
        exact Bool.false_ne_true hcon.2)]
      have hfirst' : firstIdx (a' ++ t ++ b) t = some a'.length := by
        rw [firstIdx_some_iff]
        constructor
        · rw [List.append_assoc, List.drop_left]
          exact (isPrefixOf_iff _ _).mpr ⟨b, rfl⟩
        · intro j hj
          have := hf.2 (j + 1) (by simp only [List.length_cons]; omega)
          rw [show ((c :: a') ++ t ++ b : List Char) = c :: (a' ++ t ++ b) from rfl]
            at this
          rwa [List.drop_succ_cons] at this
      rw [ih f b (by simp at hfuel ⊢; omega) hfirst' hnone]
      rfl

theorem replaceAll_single (t r : List Char) (ht : t ≠ []) :
    ∀ (a b : List Char), firstIdx (a ++ t ++ b) t = some a.length →
      firstIdx b t = none → replaceAll t r (a ++ t ++ b) = a ++ r ++ b :=
  fun a b hfirst hnone =>
    replaceAllFuel_single t r ht a (a ++ t ++ b).length b (Nat.le_refl _) hfirst hnone

theorem mapSet_append : ∀ (m : List (List Char × CitePiece)) (k : List Char)
    (v : CitePiece), k ∉ m.map Prod.fst → mapSet m k v = m ++ [(k, v)] := by
  intro m
  induction m with
  | nil => intro k v _; rfl
  | cons kv rest ih =>
    intro k v hk
    obtain ⟨k0, v0⟩ := kv
    simp only [List.map_cons, List.mem_cons, not_or] at hk
    rw [mapSet, if_neg (fun hcon => hk.1 hcon.symm), ih k v hk.2]
    rfl

theorem buildMap_eq : ∀ (kvs : List (List Char × CitePiece)),
    (kvs.map Prod.fst).Nodup → buildMap kvs = kvs := by
  have gen : ∀ (kvs acc : List (List Char × CitePiece)),
      ((acc ++ kvs).map Prod.fst).Nodup →
      kvs.foldl (fun m kv => mapSet m kv.1 kv.2) acc = acc ++ kvs := by
    intro kvs
    induction kvs with
    | nil => intro acc _; simp
    | cons kv rest ih =>
      intro acc hnd
      obtain ⟨k, v⟩ := kv
      simp only [List.foldl_cons]
      have hperm : ((acc ++ (k, v) :: rest).map Prod.fst).Perm
          ((((k, v) :: (acc ++ rest))).map Prod.fst) :=
        (@List.perm_middle _ (k, v) acc rest).map Prod.fst
      have hnd' := hperm.nodup hnd
      simp only [List.map_cons, List.nodup_cons] at hnd'
      have hknot : k ∉ acc.map Prod.fst := fun hcon =>
        hnd'.1 (by rw [List.map_append]; exact List.mem_append_left _ hcon)
      rw [mapSet_append acc k v hknot]
      rw [ih (acc ++ [(k, v)]) (by simpa using hnd)]
      simp
  intro kvs h
  exact gen kvs [] (by simpa using h)

theorem injectAll_canon (lib : ℕ) :
    ∀ (ps : List CitePiece) (toks : List (List Char)) (done tail : List Char),
      goodToks lib done toks ps tail = true →
      injectAll lib (toks.zip ps) (done ++ processedText toks ps tail) =
        done ++ canonContent lib ps tail := by
  intro ps
  induction ps with
  | nil =>
    intro toks done tail hg
    cases toks with
    | nil => simp [injectAll, processedText, canonContent]
    | cons t ts => simp [goodToks] at hg
  | cons p ps ih =>
    intro toks done tail hg
    cases toks with
    | nil => simp [goodToks] at hg
    | cons t ts =>
      simp only [goodToks, Bool.and_eq_true, beq_iff_eq, decide_eq_true_eq] at hg
      obtain ⟨⟨⟨ht, hfirst⟩, hnone⟩, hrest⟩ := hg
      have hproc : processedText (t :: ts) (p :: ps) tail =
          (p.pre ++ t) ++ processedText ts ps tail := by
        simp [processedText, List.append_assoc]
      simp only [List.zip_cons_cons, injectAll, List.foldl_cons]
      have harr : (done ++ processedText (t :: ts) (p :: ps) tail) =
          (done ++ p.pre) ++ t ++ processedText ts ps tail := by
        rw [hproc]
        simp [List.append_assoc]
      rw [harr]
      have hfirst' : firstIdx ((done ++ p.pre) ++ t ++ processedText ts ps tail) t =
          some (done ++ p.pre).length := by
        rw [List.length_append]
        exact hfirst
      rw [replaceAll_single t (buttonHtml lib p) ht (done ++ p.pre)
        (processedText ts ps tail) hfirst' hnone]
      have := ih ts (done ++ p.pre ++ buttonHtml lib p) tail hrest
      simp only [injectAll] at this
      rw [show ((done ++ p.pre) ++ buttonHtml lib p ++ processedText ts ps tail
          : List Char) =
        (done ++ p.pre ++ buttonHtml lib p) ++ processedText ts ps tail from by
          simp [List.append_assoc]]
      rw [this]
      simp [canonContent, List.append_assoc]

theorem renderedContent_canon {lib : ℕ} {r : ℕ → List Char} {s : List Char}
    (h : TokensFresh lib r s) :
    renderedContent lib r s = canonContent lib (scanParts s).1 (scanParts s).2 := by
  obtain ⟨hnd, hgood⟩ := h
  simp only [renderedContent]
  have hlen : (tokensOf r (scanParts s).1).length = (scanParts s).1.length := by
    simp [tokensOf]
  have hkeys : ((tokensOf r (scanParts s).1).zip (scanParts s).1).map Prod.fst =
      tokensOf r (scanParts s).1 :=
    List.map_fst_zip _ _ (by omega)
  rw [buildMap_eq _ (by rw [hkeys]; exact hnd)]
  have := injectAll_canon lib (scanParts s).1 (tokensOf r (scanParts s).1) []
    (scanParts s).2 hgood
  simpa using this

/-- Claim C9 (corrected), counterexample: the placeholder tokens carry a
random suffix, and a response text that already contains a token-shaped
literal collides with one random choice but not another, so two runs of
the pipeline on the same text can render different output. -/
theorem C9_counterexample :
    renderedContent 1 (fun _ => ("aaaaaaaaa").data)
        (("CITATIONTOKEN1X2Xaaaaaaaaa [1:2]").data) ≠
      renderedContent 1 (fun _ => ("bbbbbbbbb").data)
        (("CITATIONTOKEN1X2Xaaaaaaaaa [1:2]").data) := by
  decide

/-- Claim C9 (corrected), amended: the pipeline output is deterministic
provided each run's placeholder tokens are fresh — pairwise distinct,
each occurring in the placeholder-substituted text exactly at its own
substitution point along the re-injection pass; then two runs with any
two such random choices render the same output (the collision-free
canonical rendering). -/
theorem C9_amended :
    ∀ (s : List Char) (lib : ℕ) (r1 r2 : ℕ → List Char),
      TokensFresh lib r1 s → TokensFresh lib r2 s →
      renderedContent lib r1 s = renderedContent lib r2 s := by
  intro s lib r1 r2 h1 h2
  rw [renderedContent_canon h1, renderedContent_canon h2]

/-- Witness for C9_amended: two fresh random choices on the text
"See [1:12]." produce identical output. -/
theorem C9_witness :
    renderedContent 1 (fun _ => ("zzzzzzzzz").data) (("See [1:12].").data) =
      renderedContent 1 (fun _ => ("yyyyyyyyy").data) (("See [1:12].").data) :=
  C9_amended (("See [1:12].").data) 1 (fun _ => ("zzzzzzzzz").data)
    (fun _ => ("yyyyyyyyy").data) ⟨by decide, by decide⟩ ⟨by decide, by decide⟩
